import Mathlib

/-!
Verification of the podcasts-sync sync engine against its specification.

The Go sources are shallowly embedded: Go strings become `List Char` (the
relevant code operates byte-per-character on ASCII data, where bytes and
characters coincide), Go slices become `List`, Go maps become association
lists (one admissible iteration order of Go's randomized map order is fixed
and noted wherever iteration order could matter), `int64` becomes `Int`,
and fallible operations return `Option`/`Except`.  File-system state is an
explicit value threaded through the functions that the source lets mutate
the disk.
-/

set_option autoImplicit false

namespace PodcastsSync

/-- Go strings, modelled as lists of characters (one character per byte for
the ASCII data these functions operate on). -/
abbrev Str := List Char

/-- Worker for `replaceAll`, structurally recursive on a fuel argument so
that the definition reduces inside the kernel; every step consumes at least
one character, so fuel equal to the input length never runs out. -/
def replaceAllAux (pat rep : Str) : Nat → Str → Str
  | _, [] => []
  | 0, s => s
  | fuel + 1, c :: rest =>
    if pat ≠ [] ∧ pat.isPrefixOf (c :: rest) then
      rep ++ replaceAllAux pat rep fuel ((c :: rest).drop pat.length)
    else
      c :: replaceAllAux pat rep fuel rest

/-- Model of Go `strings.ReplaceAll(s, pat, rep)`: replaces the leftmost
non-overlapping occurrences of `pat` in `s` by `rep`; replacement text is
not rescanned.  Callers in this code base never pass an empty `pat`
(Go would then interleave `rep` between characters); the empty case here
returns `s` unchanged. -/
def replaceAll (pat rep s : Str) : Str :=
  replaceAllAux pat rep s.length s

/-- Model of Go `strings.Contains(s, pat)`. -/
def containsSub : Str → Str → Bool
  | s, pat =>
    match s with
    | [] => pat.isPrefixOf []
    | _ :: rest => pat.isPrefixOf s || containsSub rest pat

/-- The whitespace characters trimmed by Go `strings.TrimSpace`
(`unicode.IsSpace`); the Unicode category-`Zs` code points beyond NBSP are
not exercised by this code base and are omitted. -/
def goIsSpace (c : Char) : Bool :=
  c = ' ' || c = '\t' || c = '\n' || c = Char.ofNat 11 || c = Char.ofNat 12 ||
  c = '\r' || c = Char.ofNat 0x85 || c = Char.ofNat 0xA0

/-- Model of Go `strings.TrimSpace`. -/
def goTrimSpace (s : Str) : Str :=
  ((s.dropWhile goIsSpace).reverse.dropWhile goIsSpace).reverse

/-- The character-substitution table of `sanitizeName` (utils.go).  The Go
code uses `strings.NewReplacer` with ten single-byte patterns, which is
equivalent to this per-character substitution. -/
def sanitizeChar (c : Char) : Str :=
  if c = '/' then ['-']
  else if c = '\\' then ['-']
  else if c = ':' then ['-']
  else if c = '*' then []
  else if c = '?' then []
  else if c = '"' then [Char.ofNat 39]
  else if c = '<' then []
  else if c = '>' then []
  else if c = '|' then ['-']
  else if c = '&' then ['a', 'n', 'd'] else [c]

/-- Model of `sanitizeName` (utils.go): substitute unsafe characters, trim
surrounding whitespace, then truncate to 255 bytes. -/
def sanitizeName (name : Str) : Str :=
  let r := goTrimSpace (name.flatMap sanitizeChar)
  if r.length > 255 then r.take 255 else r

theorem dropWhile_self_idem (p : Char → Bool) (l : Str) :
    (l.dropWhile p).dropWhile p = l.dropWhile p := by
  induction l with
  | nil => rfl
  | cons c rest ih =>
    by_cases h : p c
    · simp [List.dropWhile_cons, h, ih]
    · simp [List.dropWhile_cons, h]

theorem head_dropWhile_false (p : Char → Bool) (l : Str) (c : Char)
    (h : (l.dropWhile p).head? = some c) : p c = false := by
  induction l with
  | nil => simp at h
  | cons a rest ih =>
    by_cases hp : p a
    · simp only [List.dropWhile_cons, hp, if_true] at h; exact ih h
    · simp [List.dropWhile_cons, hp] at h
      subst h
      simpa using hp

theorem dropWhile_eq_self_of_head (p : Char → Bool) (l : Str)
    (h : ∀ c, l.head? = some c → p c = false) : l.dropWhile p = l := by
  cases l with
  | nil => rfl
  | cons a rest => simp [List.dropWhile_cons, h a rfl]

theorem dropWhile_is_suffix (p : Char → Bool) (l : Str) : l.dropWhile p <:+ l := by
  induction l with
  | nil => exact List.suffix_rfl
  | cons a rest ih =>
    rw [List.dropWhile_cons]
    by_cases h : p a
    · simp only [h, if_true]
      exact ih.trans (List.suffix_cons a rest)
    · simp [h]

theorem prefix_head_eq {l t : Str} (h : t <+: l) (ht : t ≠ []) : l.head? = t.head? := by
  obtain ⟨u, rfl⟩ := h
  cases t with
  | nil => exact absurd rfl ht
  | cons a r => rfl

/-- Trimming is idempotent (key step for the amended C2). -/
theorem goTrimSpace_idem (s : Str) : goTrimSpace (goTrimSpace s) = goTrimSpace s := by
  unfold goTrimSpace
  set A := s.dropWhile goIsSpace with hA
  set t := (A.reverse.dropWhile goIsSpace).reverse with ht
  have htpre : t <+: A := by
    have h1 : t.reverse <:+ A.reverse := by
      rw [ht, List.reverse_reverse]
      exact dropWhile_is_suffix _ _
    exact (List.reverse_suffix).mp h1
  have hdt : t.dropWhile goIsSpace = t := by
    rcases Decidable.em (t = []) with h | h
    · rw [h]; rfl
    · apply dropWhile_eq_self_of_head
      intro c hc
      have hc2 : (s.dropWhile goIsSpace).head? = some c := by
        rw [← hA]
        exact (prefix_head_eq htpre h).trans hc
      exact head_dropWhile_false goIsSpace s c hc2
  rw [hdt, ht, List.reverse_reverse, dropWhile_self_idem]

/-- Every character emitted by the substitution table is a fixed point of
the table, so a second substitution pass changes nothing. -/
theorem sanitizeChar_fixed (c d : Char) (h : d ∈ sanitizeChar c) : sanitizeChar d = [d] := by
  by_cases h1 : c = '/'
  · subst h1; rw [show sanitizeChar '/' = ['-'] from rfl] at h
    rw [List.mem_singleton] at h; subst h; rfl
  by_cases h2 : c = '\\'
  · subst h2; rw [show sanitizeChar '\\' = ['-'] from rfl] at h
    rw [List.mem_singleton] at h; subst h; rfl
  by_cases h3 : c = ':'
  · subst h3; rw [show sanitizeChar ':' = ['-'] from rfl] at h
    rw [List.mem_singleton] at h; subst h; rfl
  by_cases h4 : c = '*'
  · subst h4; rw [show sanitizeChar '*' = [] from rfl] at h; exact absurd h (List.not_mem_nil d)
  by_cases h5 : c = '?'
  · subst h5; rw [show sanitizeChar '?' = [] from rfl] at h; exact absurd h (List.not_mem_nil d)
  by_cases h6 : c = '"'
  · subst h6; rw [show sanitizeChar '"' = [Char.ofNat 39] from rfl] at h
    rw [List.mem_singleton] at h; subst h; rfl
  by_cases h7 : c = '<'
  · subst h7; rw [show sanitizeChar '<' = [] from rfl] at h; exact absurd h (List.not_mem_nil d)
  by_cases h8 : c = '>'
  · subst h8; rw [show sanitizeChar '>' = [] from rfl] at h; exact absurd h (List.not_mem_nil d)
  by_cases h9 : c = '|'
  · subst h9; rw [show sanitizeChar '|' = ['-'] from rfl] at h
    rw [List.mem_singleton] at h; subst h; rfl
  by_cases h10 : c = '&'
  · subst h10; rw [show sanitizeChar '&' = ['a', 'n', 'd'] from rfl] at h
    simp only [List.mem_cons, List.not_mem_nil, or_false] at h
    rcases h with rfl | rfl | rfl <;> rfl
  · have hc : sanitizeChar c = [c] := by
      unfold sanitizeChar
      rw [if_neg h1, if_neg h2, if_neg h3, if_neg h4, if_neg h5, if_neg h6, if_neg h7,
        if_neg h8, if_neg h9, if_neg h10]
    rw [hc, List.mem_singleton] at h
    subst h
    exact hc

theorem flatMap_fixed (l : Str) (h : ∀ d ∈ l, sanitizeChar d = [d]) :
    l.flatMap sanitizeChar = l := by
  induction l with
  | nil => rfl
  | cons a rest ih =>
    rw [List.flatMap_cons, h a (List.mem_cons_self a rest),
      ih (fun d hd => h d (List.mem_cons_of_mem a hd))]
    rfl

theorem mem_of_mem_goTrimSpace {s : Str} {d : Char} (h : d ∈ goTrimSpace s) : d ∈ s := by
  unfold goTrimSpace at h
  rw [List.mem_reverse] at h
  have h2 : d ∈ (s.dropWhile goIsSpace).reverse := (dropWhile_is_suffix _ _).subset h
  rw [List.mem_reverse] at h2
  exact (dropWhile_is_suffix _ _).subset h2

/-- An input whose substituted, trimmed form is 256 characters long, so the
255-byte truncation cuts it right after an interior space. -/
def longNameInput : Str := List.replicate 254 'a' ++ [' ', 'b']

/-- C2 counterexample: `sanitizeName` is not idempotent on every input.
For 254 copies of `a` followed by a space and a `b`, the first pass trims
nothing (the input ends in `b`) and then truncates to 255 bytes, leaving a
trailing space; the second pass trims that space, shortening the string to
254 characters. -/
theorem sanitizeName_not_idempotent :
    sanitizeName (sanitizeName longNameInput) ≠ sanitizeName longNameInput := by
  set_option maxRecDepth 100000 in decide

/-- C2, amended: `sanitizeName` is idempotent on every input whose
substituted and trimmed form fits in the 255-byte bound, i.e. whenever the
truncation step does not fire.  (The counterexample shows truncation can
expose trailing whitespace that only a second pass removes.) -/
theorem sanitizeName_idem_of_short (s : Str)
    (h : (goTrimSpace (s.flatMap sanitizeChar)).length ≤ 255) :
    sanitizeName (sanitizeName s) = sanitizeName s := by
  have hnot : ¬ (goTrimSpace (s.flatMap sanitizeChar)).length > 255 := by omega
  have hs : sanitizeName s = goTrimSpace (s.flatMap sanitizeChar) := by
    unfold sanitizeName
    simp [hnot]
  rw [hs]
  have hfix : (goTrimSpace (s.flatMap sanitizeChar)).flatMap sanitizeChar
      = goTrimSpace (s.flatMap sanitizeChar) := by
    apply flatMap_fixed
    intro d hd
    have hd2 : d ∈ s.flatMap sanitizeChar := mem_of_mem_goTrimSpace hd
    rw [List.mem_flatMap] at hd2
    obtain ⟨a, _, hda⟩ := hd2
    exact sanitizeChar_fixed a d hda
  unfold sanitizeName
  rw [hfix, goTrimSpace_idem]
  simp [hnot]

/-- Witness for the amended C2 at a concrete input. -/
theorem sanitizeName_idem_of_short_witness :
    (goTrimSpace (("  Ep*sode: one&two  ".data).flatMap sanitizeChar)).length ≤ 255 ∧
    sanitizeName (sanitizeName "  Ep*sode: one&two  ".data) =
      sanitizeName "  Ep*sode: one&two  ".data :=
  ⟨by decide, sanitizeName_idem_of_short _ (by decide)⟩

/-! ## Data model and naming engine (model.go, utils.go) -/

/-- Model of Go `time.Time` restricted to its calendar date; the zero value
of `time.Time` has year 1, month January, day 1. -/
structure GoDate where
  year : Nat
  month : Nat
  day : Nat
deriving DecidableEq, Repr

/-- The date carried by Go's zero `time.Time`. -/
def zeroDate : GoDate := ⟨1, 1, 1⟩

/-- `PodcastEpisode` (podcast.go).  `Duration` (`time.Duration`, an `int64`
nanosecond count) is `Int`; `Progress` (`float64`) is carried as `ℚ` and
never computed on by the functions modelled here. -/
structure PodcastEpisode where
  zTitle : Str
  showName : Str
  filePath : Str
  published : GoDate
  selected : Bool
  fileSize : Int
  onDrive : Bool
  duration : Int
  progress : ℚ
deriving DecidableEq, Repr

/-- `DirectoryTemplate` (drive portion of the internal package). -/
structure DirectoryTemplate where
  showNameFormat : Str
  episodeFormat : Str
  dateFormat : Str
  sanitizeNames : Bool
  createIndex : Bool
deriving DecidableEq, Repr

/-- `defaultDirTemplate`: show folder `{show}`, episode file
`{date} - {title}`, date layout `2006-01-02`, sanitization on. -/
def defaultDirTemplate : DirectoryTemplate :=
  { showNameFormat := "\x7bshow\x7d".data
    episodeFormat := "\x7bdate\x7d - \x7btitle\x7d".data
    dateFormat := "2006-01-02".data
    sanitizeNames := true
    createIndex := false }

/-- Left-pad a decimal numeral with zeros to the given width. -/
def padNum (width n : Nat) : Str :=
  let digits := (Nat.toDigits 10 n)
  List.replicate (width - digits.length) '0' ++ digits

/-- Worker for `goFormatDate`, structurally recursive on fuel (each step
consumes at least one layout character). -/
def goFormatDateAux (d : GoDate) : Nat → Str → Str
  | _, [] => []
  | 0, s => s
  | fuel + 1, c :: rest =>
    if ("2006".data).isPrefixOf (c :: rest) then
      padNum 4 d.year ++ goFormatDateAux d fuel (rest.drop 3)
    else if ("01".data).isPrefixOf (c :: rest) then
      padNum 2 d.month ++ goFormatDateAux d fuel (rest.drop 1)
    else if ("02".data).isPrefixOf (c :: rest) then
      padNum 2 d.day ++ goFormatDateAux d fuel (rest.drop 1)
    else
      c :: goFormatDateAux d fuel rest

/-- Model of Go `time.Time.Format` restricted to the numeric layout tokens
`2006`, `01` and `02` used by this code base (scanning the layout left to
right, copying non-token characters verbatim). -/
def goFormatDate (format : Str) (d : GoDate) : Str :=
  goFormatDateAux d format.length format

/-- Model of Go `path/filepath.Ext`: the suffix of the final path element
starting at its last dot, or empty if there is none. -/
def goExt (p : Str) : Str :=
  let base := (p.reverse.takeWhile (fun c => c ≠ '/')).reverse
  let afterDot := base.reverse.takeWhile (fun c => c ≠ '.')
  if afterDot.length = base.length then [] else '.' :: afterDot.reverse

/-- Model of Go `strings.TrimSuffix`. -/
def trimSuf (s suffix : Str) : Str :=
  if suffix.isSuffixOf s then s.take (s.length - suffix.length) else s

/-- Model of Go `path/filepath.Base` (the `filepath.Clean` normalisation of
dot segments is omitted; the paths handled here contain none). -/
def goBase (p : Str) : Str :=
  if p = [] then ".".data
  else
    let q := p.reverse.dropWhile (fun c => c = '/')
    if q = [] then "/".data
    else (q.takeWhile (fun c => c ≠ '/')).reverse

/-- Model of Go `path/filepath.Dir` (again without the `Clean` dot-segment
normalisation, which the paths handled here never need). -/
def goDir (p : Str) : Str :=
  let q := p.reverse.dropWhile (fun c => c ≠ '/')
  if q = [] then ".".data
  else
    let r := q.dropWhile (fun c => c = '/')
    if r = [] then "/".data else r.reverse

/-- Model of Go `path/filepath.Join` on two components.  `Join` drops empty
components and `Clean`s the result; the components joined by this code base
are slash-free sanitized names, for which `Clean` is the identity. -/
def goJoin (a b : Str) : Str :=
  if a = [] then b
  else if b = [] then a
  else a ++ '/' :: b

/-- `formatEpisodeName` (utils.go): substitute `{title}`, `{date}` and
`{show}` (in that order) into the default template's episode format,
sanitize, and append the source file's extension when missing. -/
def formatEpisodeName (episode : PodcastEpisode) : Str :=
  let template := defaultDirTemplate
  let name := replaceAll ("\x7btitle\x7d".data) episode.zTitle template.episodeFormat
  let name := replaceAll ("\x7bdate\x7d".data) (goFormatDate template.dateFormat episode.published) name
  let name := replaceAll ("\x7bshow\x7d".data) episode.showName name
  let name := if template.sanitizeNames then sanitizeName name else name
  let ext := goExt episode.filePath
  if ext.isSuffixOf name then name else name ++ ext

/-! ## Regex model (Go `regexp`, restricted to the constructs this code base
can emit) and the `parseEpisodeFromPath` pipeline (utils.go) -/

/-- The characters escaped by Go `regexp.QuoteMeta`. -/
def goRegexSpecial (c : Char) : Bool :=
  c = '\\' || c = '.' || c = '+' || c = '*' || c = '?' || c = '(' || c = ')' ||
  c = '|' || c = '[' || c = ']' || c = Char.ofNat 123 || c = Char.ofNat 125 ||
  c = '^' || c = '$'

/-- Model of Go `regexp.QuoteMeta`. -/
def quoteMeta (s : Str) : Str :=
  s.flatMap (fun c => if goRegexSpecial c then ['\\', c] else [c])

/-- The `datePatterns` map literal of `dateFormatToRegex` (utils.go), in
source order. -/
def datePatterns : List (Str × Str) :=
  [ ("2006".data, "\\d\x7b4\x7d".data)
  , ("06".data, "\\d\x7b2\x7d".data)
  , ("01".data, "\\d\x7b2\x7d".data)
  , ("1".data, "\\d\x7b1,2\x7d".data)
  , ("02".data, "\\d\x7b2\x7d".data)
  , ("2".data, "\\d\x7b1,2\x7d".data)
  , ("15".data, "\\d\x7b2\x7d".data)
  , ("3".data, "\\d\x7b1,2\x7d".data)
  , ("04".data, "\\d\x7b2\x7d".data)
  , ("4".data, "\\d\x7b1,2\x7d".data)
  , ("05".data, "\\d\x7b2\x7d".data)
  , ("5".data, "\\d\x7b1,2\x7d".data)
  , ("PM".data, "[AP]M".data)
  , ("pm".data, "[ap]m".data)
  , ("Monday".data, "[A-Za-z]+".data)
  , ("Mon".data, "[A-Za-z]+".data)
  , ("January".data, "[A-Za-z]+".data)
  , ("Jan".data, "[A-Za-z]+".data)
  , ("_2".data, "\\s?\\d\x7b1,2\x7d".data)
  , ("_02".data, "\\s?\\d\x7b2\x7d".data) ]

/-- The pattern keys sorted by length, descending, as `dateFormatToRegex`
sorts them.  Go sorts the keys of a randomized map iteration with a
non-stable sort, so the order *within* a length class is arbitrary; this
list fixes one admissible order.  `dateFormatToRegex_mangled_all_orders`
below shows that for the default date format the outcome does not depend on
the order chosen within the only length class whose order matters. -/
def sortedDatePatterns : List (Str × Str) :=
  [ ("January".data, "[A-Za-z]+".data)
  , ("Monday".data, "[A-Za-z]+".data)
  , ("2006".data, "\\d\x7b4\x7d".data)
  , ("Mon".data, "[A-Za-z]+".data)
  , ("Jan".data, "[A-Za-z]+".data)
  , ("_02".data, "\\s?\\d\x7b2\x7d".data)
  , ("06".data, "\\d\x7b2\x7d".data)
  , ("01".data, "\\d\x7b2\x7d".data)
  , ("02".data, "\\d\x7b2\x7d".data)
  , ("15".data, "\\d\x7b2\x7d".data)
  , ("04".data, "\\d\x7b2\x7d".data)
  , ("05".data, "\\d\x7b2\x7d".data)
  , ("PM".data, "[AP]M".data)
  , ("pm".data, "[ap]m".data)
  , ("_2".data, "\\s?\\d\x7b1,2\x7d".data)
  , ("1".data, "\\d\x7b1,2\x7d".data)
  , ("2".data, "\\d\x7b1,2\x7d".data)
  , ("3".data, "\\d\x7b1,2\x7d".data)
  , ("4".data, "\\d\x7b1,2\x7d".data)
  , ("5".data, "\\d\x7b1,2\x7d".data) ]

/-- `dateFormatToRegex` (utils.go): quote the layout, then textually replace
each pattern key (longest first) by its regex fragment.  The replacement is
plain `strings.ReplaceAll`, so keys can also strike inside regex fragments
inserted by earlier replacements. -/
def dateFormatToRegex (format : Str) : Str :=
  sortedDatePatterns.foldl (fun regex p => replaceAll p.1 p.2 regex) (quoteMeta format)

/-- Regex abstract syntax (the fragment of Go `regexp` reachable from the
patterns this code base builds): literals, `\d`, `.`, concatenation,
alternation, star and capturing groups. -/
inductive GRx where
  | eps
  | lit (c : Char)
  | dig
  | dot
  | cat (a b : GRx)
  | alt (a b : GRx)
  | star (r : GRx)
  | grp (i : Nat) (r : GRx)
deriving Repr, DecidableEq

/-- Captured submatches, keyed by group index. -/
abbrev Caps := List (Nat × Str)

def updateCap (i : Nat) (v : Str) : Caps → Caps
  | [] => [(i, v)]
  | (j, w) :: rest => if j = i then (i, v) :: rest else (j, w) :: updateCap i v rest

def lookupCap (i : Nat) : Caps → Str
  | [] => []
  | (j, w) :: rest => if j = i then w else lookupCap i rest

/-- Backtracking matcher in continuation-passing style, with leftmost-first
(greedy) priority as in Go's regexp engine; `fuel` bounds the search depth
and is chosen large enough at the call site. -/
def gmRun : Nat → GRx → Str → (Str → Caps → Option Caps) → Caps → Option Caps
  | 0, _, _, _, _ => none
  | fuel + 1, r, s, k, caps =>
    match r with
    | .eps => k s caps
    | .lit c =>
      match s with
      | [] => none
      | d :: rest => if d = c then k rest caps else none
    | .dig =>
      match s with
      | [] => none
      | d :: rest => if d.isDigit then k rest caps else none
    | .dot =>
      match s with
      | [] => none
      | d :: rest => if d = '\n' then none else k rest caps
    | .cat a b => gmRun fuel a s (fun s1 c1 => gmRun fuel b s1 k c1) caps
    | .alt a b =>
      match gmRun fuel a s k caps with
      | some res => some res
      | none => gmRun fuel b s k caps
    | .star a =>
      match gmRun fuel a s
          (fun s1 c1 =>
            if s1.length < s.length then gmRun fuel (.star a) s1 k c1 else k s1 c1) caps with
      | some res => some res
      | none => k s caps
    | .grp i a =>
      gmRun fuel a s
        (fun s1 c1 => k s1 (updateCap i (s.take (s.length - s1.length)) c1)) caps

def grxSize : GRx → Nat
  | .eps => 1
  | .lit _ => 1
  | .dig => 1
  | .dot => 1
  | .cat a b => grxSize a + grxSize b + 1
  | .alt a b => grxSize a + grxSize b + 1
  | .star r => grxSize r + 1
  | .grp _ r => grxSize r + 1

/-- Parse the inside of a repetition `{n}`, `{n,}` or `{n,m}` (the input
starts after the opening brace).  Returns `none` when the text is not a
well-formed repetition, in which case Go treats the brace as a literal. -/
def parseRepeat (s : Str) : Option (Nat × Option Nat × Str) :=
  let digits1 := s.takeWhile Char.isDigit
  let rest1 := s.dropWhile Char.isDigit
  if digits1 = [] then none
  else
    let n := digits1.foldl (fun a c => a * 10 + (c.toNat - 48)) 0
    match rest1 with
    | c :: rest2 =>
      if c = Char.ofNat 125 then some (n, some n, rest2)
      else if c = ',' then
        let digits2 := rest2.takeWhile Char.isDigit
        let rest3 := rest2.dropWhile Char.isDigit
        match rest3 with
        | c2 :: rest4 =>
          if c2 = Char.ofNat 125 then
            if digits2 = [] then some (n, none, rest4)
            else some (n, some (digits2.foldl (fun a c => a * 10 + (c.toNat - 48)) 0), rest4)
          else none
        | [] => none
      else none
    | [] => none

/-- Greedy unfolding of a bounded repetition: `a^n` then `max - n` optional
copies preferring presence; `{n,}` becomes `a^n` followed by a star. -/
def unfoldRepeat (a : GRx) (n : Nat) : Option Nat → GRx
  | some m =>
    (List.replicate n a ++ List.replicate (m - n) (GRx.alt a .eps)).foldr .cat .eps
  | none => (List.replicate n a).foldr .cat (.star a)

def seqOf (atoms : List GRx) : GRx := atoms.foldr .cat .eps

/-- Consume at most one postfix operator following an atom, mirroring Go's
parser: a brace that does not parse as a repetition is left in the input to
become a literal; a repetition with out-of-range or inverted bounds is a
compile error (`none`). -/
def applyPostfix (a : GRx) (s : Str) : Option (GRx × Str) :=
  match s with
  | '*' :: rest => some (.star a, rest)
  | '+' :: rest => some (.cat a (.star a), rest)
  | '?' :: rest => some (.alt a .eps, rest)
  | c :: rest =>
    if c = Char.ofNat 123 then
      match parseRepeat rest with
      | some (n, mx, rest2) =>
        if n > 1000 then none
        else
          match mx with
          | some m => if m > 1000 ∨ m < n then none else some (unfoldRepeat a n (some m), rest2)
          | none => some (unfoldRepeat a n none, rest2)
      | none => some (a, s)
    else some (a, s)
  | [] => some (a, s)

/-- Recursive-descent parser for the emitted pattern subset: literals,
escapes, `.`, capturing groups, postfix `* + ?` and counted repetitions
with Go's literal-brace fallback.  Constructs this code base never emits
(classes, alternation bars, inner anchors, unknown escapes) make the parse
fail, which the caller treats as a compile error.  Returns the atom list,
the unconsumed input (at `)` or the end) and the next group index. -/
def parseSeq : Nat → Str → Nat → Option (List GRx × Str × Nat)
  | 0, _, _ => none
  | fuel + 1, s, g =>
    match s with
    | [] => some ([], [], g)
    | ')' :: _ => some ([], s, g)
    | '(' :: rest =>
      match parseSeq fuel rest (g + 1) with
      | some (atoms, rest2, g2) =>
        match rest2 with
        | ')' :: rest3 =>
          match applyPostfix (GRx.grp g (seqOf atoms)) rest3 with
          | some (a, rest4) =>
            match parseSeq fuel rest4 g2 with
            | some (atoms2, rest5, g3) => some (a :: atoms2, rest5, g3)
            | none => none
          | none => none
        | _ => none
      | none => none
    | '\\' :: [] => none
    | '\\' :: e :: rest =>
      let atom? : Option GRx :=
        if e = 'd' then some .dig
        else if e.isAlphanum then none
        else some (.lit e)
      match atom? with
      | none => none
      | some a =>
        match applyPostfix a rest with
        | some (a2, rest2) =>
          match parseSeq fuel rest2 g with
          | some (atoms2, rest3, g2) => some (a2 :: atoms2, rest3, g2)
          | none => none
        | none => none
    | '|' :: _ => none
    | '[' :: _ => none
    | '^' :: _ => none
    | '$' :: _ => none
    | '*' :: _ => none
    | '+' :: _ => none
    | '?' :: _ => none
    | c :: rest =>
      let atom? : Option GRx :=
        if c = Char.ofNat 123 then
          match parseRepeat rest with
          | some _ => none
          | none => some (.lit c)
        else if c = '.' then some .dot
        else some (.lit c)
      match atom? with
      | none => none
      | some a =>
        match applyPostfix a rest with
        | some (a2, rest2) =>
          match parseSeq fuel rest2 g with
          | some (atoms2, rest3, g2) => some (a2 :: atoms2, rest3, g2)
          | none => none
        | none => none

/-- Compile an anchored pattern `^ ... $`, as `parseEpisodeFromPath` always
builds one; returns the syntax tree and the number of capturing groups. -/
def goCompile (p : Str) : Option (GRx × Nat) :=
  match p with
  | '^' :: rest =>
    match rest.getLast? with
    | some c =>
      if c = '$' then
        match parseSeq (2 * p.length + 4) rest.dropLast 1 with
        | some (atoms, [], gFinal) => some (seqOf atoms, gFinal - 1)
        | _ => none
      else none
    | none => none
  | _ => none

/-- Model of `Regexp.FindStringSubmatch` on an anchored pattern: a full
match of `s`, returning the list of captured groups (group `0`, the full
match, is omitted; callers index from the first capture). -/
def goFindSubmatch (rx : GRx) (ng : Nat) (s : Str) : Option (List Str) :=
  match gmRun ((grxSize rx + 2) * (s.length + 2)) rx s
      (fun rest caps => if rest = [] then some caps else none) [] with
  | none => none
  | some caps => some ((List.range ng).map (fun i => lookupCap (i + 1) caps))

/-- `getPlaceholderPositions` (utils.go): capture-group positions assigned
in the fixed order date, title, show, counting only placeholders present in
the template; returned as `(date, title, show)` positions. -/
def getPlaceholderPositions (template : Str) : Option Nat × Option Nat × Option Nat :=
  let hasDate := containsSub template "\x7bdate\x7d".data
  let hasTitle := containsSub template "\x7btitle\x7d".data
  let hasShow := containsSub template "\x7bshow\x7d".data
  ( if hasDate then some 1 else none
  , if hasTitle then some (1 + (if hasDate then 1 else 0)) else none
  , if hasShow then some (1 + (if hasDate then 1 else 0) + (if hasTitle then 1 else 0)) else none )

/-- Model of Go `time.Parse` for the layout `2006-01-02` (the only layout
this code base uses; other layouts are modelled as a parse failure). -/
def goParseDate (format : Str) (s : Str) : Option GoDate :=
  if format = "2006-01-02".data then
    match s with
    | [y1, y2, y3, y4, '-', m1, m2, '-', d1, d2] =>
      if y1.isDigit && y2.isDigit && y3.isDigit && y4.isDigit &&
          m1.isDigit && m2.isDigit && d1.isDigit && d2.isDigit then
        let y := ((y1.toNat - 48) * 10 + (y2.toNat - 48)) * 100 +
          (y3.toNat - 48) * 10 + (y4.toNat - 48)
        let m := (m1.toNat - 48) * 10 + (m2.toNat - 48)
        let d := (d1.toNat - 48) * 10 + (d2.toNat - 48)
        if 1 ≤ m ∧ m ≤ 12 ∧ 1 ≤ d ∧ d ≤ 31 then some ⟨y, m, d⟩ else none
      else none
    | _ => none
  else none

/-- A `PodcastEpisode` with every field at its Go zero value. -/
def emptyEpisode : PodcastEpisode :=
  { zTitle := [], showName := [], filePath := [], published := zeroDate,
    selected := false, fileSize := 0, onDrive := false, duration := 0, progress := 0 }

/-- `parseEpisodeFromPath` (utils.go).  The second component records
whether the function returned an error (date-parse failure); on
pattern-compile failure or when the pattern does not match, the bare stem
becomes the title (the documented degraded mode) with no error. -/
def parseEpisodeFromPath (path : Str) (template : DirectoryTemplate) : PodcastEpisode × Bool :=
  let ep0 : PodcastEpisode :=
    { emptyEpisode with filePath := path, showName := goBase (goDir path) }
  let filename := goBase path
  let ext := goExt filename
  let nameWithoutExt := trimSuf filename ext
  let dateRegex := dateFormatToRegex template.dateFormat
  let pattern := quoteMeta template.episodeFormat
  let pattern := replaceAll (quoteMeta "\x7bdate\x7d".data) ('(' :: (dateRegex ++ [')'])) pattern
  let pattern := replaceAll (quoteMeta "\x7btitle\x7d".data) "(.+)".data pattern
  let pattern := replaceAll (quoteMeta "\x7bshow\x7d".data) ".+".data pattern
  match goCompile ('^' :: (pattern ++ ['$'])) with
  | none => ({ ep0 with zTitle := nameWithoutExt }, false)
  | some (rx, ng) =>
    match goFindSubmatch rx ng nameWithoutExt with
    | none => ({ ep0 with zTitle := nameWithoutExt }, false)
    | some groups =>
      let pos := getPlaceholderPositions template.episodeFormat
      groups.enum.foldl
        (fun acc im =>
          if acc.2 then acc
          else if pos.1 = some (im.1 + 1) then
            match goParseDate template.dateFormat im.2 with
            | some d => ({ acc.1 with published := d }, false)
            | none => (acc.1, true)
          else if pos.2.1 = some (im.1 + 1) then
            ({ acc.1 with
                zTitle := if template.sanitizeNames then replaceAll ['-'] [' '] im.2 else im.2 },
              acc.2)
          else acc)
        (ep0, false)

/-! ## C1: the format/parse round trip on the default template -/

/-- All insertions of `a` into a list. -/
def insertEverywhere {α : Type} (a : α) : List α → List (List α)
  | [] => [[a]]
  | b :: l => (a :: b :: l) :: (insertEverywhere a l).map (fun t => b :: t)

/-- All permutations of a list (structurally recursive, so it evaluates in
the kernel). -/
def allPerms {α : Type} : List α → List (List α)
  | [] => [[]]
  | a :: l => (allPerms l).flatMap (insertEverywhere a)

theorem mem_insertEverywhere_of_split {α : Type} (a : α) (t1 t2 : List α) :
    (t1 ++ a :: t2) ∈ insertEverywhere a (t1 ++ t2) := by
  induction t1 with
  | nil => cases t2 <;> simp [insertEverywhere]
  | cons b t ih =>
    simp only [List.cons_append, insertEverywhere, List.mem_cons, List.mem_map]
    right
    exact ⟨t ++ a :: t2, ih, rfl⟩

/-- `allPerms` covers every permutation. -/
theorem mem_allPerms_of_perm {α : Type} {l m : List α} (h : m.Perm l) : m ∈ allPerms l := by
  induction l generalizing m with
  | nil => simp [allPerms, h.eq_nil]
  | cons a l ih =>
    have ha : a ∈ m := h.symm.subset (List.mem_cons_self a l)
    obtain ⟨t1, t2, rfl⟩ := List.append_of_mem ha
    have hmid : (a :: (t1 ++ t2)).Perm (a :: l) := List.perm_middle.symm.trans h
    have hrest : (t1 ++ t2).Perm l := hmid.cons_inv
    exact List.mem_flatMap.mpr ⟨t1 ++ t2, ih hrest, mem_insertEverywhere_of_split a t1 t2⟩

/-- The single-character pattern keys, whose mutual order Go's non-stable
sort of a randomized map iteration leaves unspecified. -/
def lenOneDatePatterns : List (Str × Str) :=
  [ ("1".data, "\\d\x7b1,2\x7d".data)
  , ("2".data, "\\d\x7b1,2\x7d".data)
  , ("3".data, "\\d\x7b1,2\x7d".data)
  , ("4".data, "\\d\x7b1,2\x7d".data)
  , ("5".data, "\\d\x7b1,2\x7d".data) ]

/-- State of the regex string for the default format `2006-01-02` after all
pattern keys of length at least two have been applied.  Up to that point
the outcome is order-independent: within each length class only `2006`,
`01` and `02` ever occur in the evolving string (every other key contains a
letter, an underscore, or the digit pairs `06`, `15`, `04`, `05`, which
never appear), and `01` and `02` strike disjoint parts. -/
def afterLenTwoPhase : Str := "\\d\x7b4\x7d-\\d\x7b2\x7d-\\d\x7b2\x7d".data

/-- Whatever tie order the sort produces for the single-character keys, the
final regex for the default date format contains a brace immediately
followed by a backslash: the key `2` rewrites the `2` inside an inserted
`\d\x7b2\x7d` fragment, leaving `\x7b\d\x7b1,2\x7d\x7d`, and later keys
never separate that brace from the backslash.  Go's regexp parser treats
such a brace as a literal, so the resulting pattern can only match strings
that contain a brace — which no formatted episode name does. -/
theorem dateFormatToRegex_mangled_all_orders :
    ∀ ord : List (Str × Str), ord.Perm lenOneDatePatterns →
      containsSub (ord.foldl (fun regex p => replaceAll p.1 p.2 regex) afterLenTwoPhase)
        ['\x7b', '\\'] = true := by
  have hall : ((allPerms lenOneDatePatterns).all
      (fun ord => containsSub (ord.foldl (fun regex p => replaceAll p.1 p.2 regex) afterLenTwoPhase)
        ['\x7b', '\\'])) = true := by
    set_option maxRecDepth 1000000 in decide
  intro ord h
  exact List.all_eq_true.mp hall ord (mem_allPerms_of_perm h)

/-- Sanity check of the regex model: on the pattern that `dateFormatToRegex`
was evidently intended to produce, the engine matches a formatted name and
extracts the date and the title. -/
theorem parse_engine_extracts_from_intended_pattern :
    (match goCompile ("^(\\d\x7b4\x7d-\\d\x7b2\x7d-\\d\x7b2\x7d) - (.+)$".data) with
      | some (rx, ng) => goFindSubmatch rx ng ("2024-01-15 - Hello".data)
      | none => none) = some ["2024-01-15".data, "Hello".data] := by
  set_option maxRecDepth 100000 in decide

/-- A representative catalog episode, with title and show name well inside
the sanitizer's domain. -/
def c1Episode : PodcastEpisode :=
  { zTitle := "Hello".data, showName := "Show".data, filePath := "/pods/Hello.mp3".data,
    published := ⟨2024, 1, 15⟩, selected := false, fileSize := 100, onDrive := false,
    duration := 0, progress := 0 }

/-- C1: the round trip fails on the code as written.  Formatting
`c1Episode` with the default template yields `2024-01-15 - Hello.mp3`, but
parsing that relative path back does not recover the title and publish
date: because `dateFormatToRegex` mangles the date pattern (see
`dateFormatToRegex_mangled_all_orders`), the compiled expression never
matches, and `parseEpisodeFromPath` silently falls back to using the whole
stem `2024-01-15 - Hello` as the title with the zero date. -/
theorem roundtrip_parse_format_fails :
    formatEpisodeName c1Episode = "2024-01-15 - Hello.mp3".data ∧
    (parseEpisodeFromPath ("podcasts/Show/".data ++ formatEpisodeName c1Episode)
        defaultDirTemplate).1.showName = c1Episode.showName ∧
    (parseEpisodeFromPath ("podcasts/Show/".data ++ formatEpisodeName c1Episode)
        defaultDirTemplate).1.zTitle = "2024-01-15 - Hello".data ∧
    (parseEpisodeFromPath ("podcasts/Show/".data ++ formatEpisodeName c1Episode)
        defaultDirTemplate).1.zTitle ≠ c1Episode.zTitle ∧
    (parseEpisodeFromPath ("podcasts/Show/".data ++ formatEpisodeName c1Episode)
        defaultDirTemplate).1.published = zeroDate ∧
    (parseEpisodeFromPath ("podcasts/Show/".data ++ formatEpisodeName c1Episode)
        defaultDirTemplate).2 = false := by
  set_option maxRecDepth 100000 in decide

/-! ## Matcher (podcast_matcher.go, tui/commands_drive.go)

Go stores episodes behind shared pointers; the model keeps one `catalog`
list and lets the indices hold positions into it, so an update through a
"pointer" becomes `List.set`.  Go maps become association lists; one
admissible iteration order (first appearance) is fixed where Go's map
order is arbitrary. -/

/-- Append `i` to the entry for `k`, creating it if missing — the model of
`m[k] = append(m[k], p)` on a Go map of slices. -/
def upsertAppend : List (Int × List Nat) → Int → Nat → List (Int × List Nat)
  | [], k, i => [(k, [i])]
  | (k0, l) :: rest, k, i =>
    if k0 = k then (k0, l ++ [i]) :: rest else (k0, l) :: upsertAppend rest k i

/-- Go map read with the zero default: the slice for `k`, or `[]`. -/
def lookupSize : List (Int × List Nat) → Int → List Nat
  | [], _ => []
  | (k0, l) :: rest, k => if k0 = k then l else lookupSize rest k

/-- `buildPodcastSizeMap` (tui/commands_drive.go): index the catalog by
file size, skipping episodes whose size is not positive. -/
def buildPodcastSizeMap (catalog : List PodcastEpisode) : List (Int × List Nat) :=
  catalog.enum.foldl
    (fun m p => if p.2.fileSize > 0 then upsertAppend m p.2.fileSize p.1 else m) []

/-- `buildExpectedDrivePath` (podcast_matcher.go). -/
def buildExpectedDrivePath (ep : PodcastEpisode) : Str :=
  goJoin (sanitizeName ep.showName) (formatEpisodeName ep)

/-- Go map insert (last write wins). -/
def insertOverwrite : List (Str × Nat) → Str → Nat → List (Str × Nat)
  | [], k, v => [(k, v)]
  | (k0, v0) :: rest, k, v =>
    if k0 = k then (k, v) :: rest else (k0, v0) :: insertOverwrite rest k v

def lookupPath : List (Str × Nat) → Str → Option Nat
  | [], _ => none
  | (k0, v0) :: rest, k => if k0 = k then some v0 else lookupPath rest k

/-- The index-building loop of `NewPodcastMatcher` (podcast_matcher.go):
for every episode in the size index, record its expected drive path. -/
def buildPathIndex (catalog : List PodcastEpisode) (bySize : List (Int × List Nat)) :
    List (Str × Nat) :=
  bySize.foldl
    (fun idx p =>
      p.2.foldl
        (fun idx i =>
          match catalog.get? i with
          | some ep => insertOverwrite idx (buildExpectedDrivePath ep) i
          | none => idx) idx) []

/-- `PodcastMatcher` (podcast_matcher.go). -/
structure PodcastMatcher where
  podcastsBySize : List (Int × List Nat)
  podcastsByPath : List (Str × Nat)

/-- `NewPodcastMatcher` (podcast_matcher.go). -/
def NewPodcastMatcher (catalog : List PodcastEpisode) (podcastsBySize : List (Int × List Nat)) :
    PodcastMatcher :=
  { podcastsBySize := podcastsBySize
    podcastsByPath := buildPathIndex catalog podcastsBySize }

/-- Model of Go `strings.Split(s, "/")`. -/
def splitSlash (s : Str) : List Str :=
  s.foldr
    (fun c acc =>
      match acc with
      | [] => if c = '/' then [[], []] else [[c]]
      | h :: t => if c = '/' then [] :: h :: t else (c :: h) :: t)
    [[]]

/-- `canonicalizePathForMatching` (podcast_matcher.go): the last two path
components, or the base name for a single-component path. -/
def canonicalizePathForMatching (fullPath : Str) : Str :=
  let parts := splitSlash fullPath
  if parts.length ≥ 2 then
    goJoin (parts.getD (parts.length - 2) []) (parts.getD (parts.length - 1) [])
  else goBase fullPath

/-- `updatePodcastMatch` (podcast_matcher.go): the drive-side candidate is
flagged and enriched from the catalog entry; the catalog entry only gets
its flag set. -/
def updatePodcastMatch (podcast m : PodcastEpisode) : PodcastEpisode × PodcastEpisode :=
  ( { podcast with
      onDrive := true
      zTitle := m.zTitle
      showName := m.showName
      duration := m.duration
      published := m.published }
  , { m with onDrive := true } )

/-- Tolerance test of `matchByDuration`: `|cand - m| ≤ 0.02 * cand`,
written exactly as `50 * |cand - m| ≤ cand` (the source computes the bound
in `float64`; exact arithmetic agrees away from the representation
boundary, and the claims quantify over exact comparisons). -/
def durationWithinTol (cand m : PodcastEpisode) : Bool :=
  !(m.duration = 0) && decide (50 * (cand.duration - m.duration).natAbs ≤ cand.duration)

/-- `matchByDuration` (podcast_matcher.go): requires a known candidate
duration and accepts the first size-colliding entry within tolerance. -/
def matchByDuration (catalog : List PodcastEpisode) (cand : PodcastEpisode)
    (ids : List Nat) : Option Nat :=
  if cand.duration = 0 then none
  else
    ids.find? (fun i =>
      match catalog.get? i with
      | some m => durationWithinTol cand m
      | none => false)

/-- `matchByChecksum` (podcast_matcher.go): `chk` is the content-hash
collaborator (`getChecksum`), `none` modelling a read failure.  A failure
on the candidate itself is the error return; failures on catalog entries
are skipped. -/
def matchByChecksum (catalog : List PodcastEpisode) (chk : Str → Option Str)
    (cand : PodcastEpisode) (ids : List Nat) : Except Unit (Option Nat) :=
  match chk cand.filePath with
  | none => .error ()
  | some c =>
    .ok (ids.find? (fun i =>
      match catalog.get? i with
      | some m => chk m.filePath = some c
      | none => false))

/-- Which cascade step produced a match. -/
inductive MatchStep
  | path
  | sizeUnique
  | duration
  | checksum
deriving DecidableEq, Repr

/-- Result of one `Match` call: the updated candidate, the updated catalog,
the matched entry and step (if any), and whether the call returned an
error (candidate checksum failure). -/
structure MatchOutcome where
  candidate : PodcastEpisode
  catalog : List PodcastEpisode
  matched : Option (Nat × MatchStep)
  errored : Bool
deriving DecidableEq, Repr

/-- Apply `updatePodcastMatch` through the "pointer" at index `i`. -/
def applyMatch (catalog : List PodcastEpisode) (cand : PodcastEpisode) (i : Nat)
    (step : MatchStep) : MatchOutcome :=
  match catalog.get? i with
  | some m =>
    { candidate := (updatePodcastMatch cand m).1
      catalog := catalog.set i (updatePodcastMatch cand m).2
      matched := some (i, step)
      errored := false }
  | none => { candidate := cand, catalog := catalog, matched := none, errored := false }

/-- The checksum arm of `Match` (steps after the duration tiebreak fails). -/
def checksumArm (catalog : List PodcastEpisode) (chk : Str → Option Str)
    (cand : PodcastEpisode) (ids : List Nat) : MatchOutcome :=
  match matchByChecksum catalog chk cand ids with
  | .error _ => { candidate := cand, catalog := catalog, matched := none, errored := true }
  | .ok o =>
    match o with
    | some i => applyMatch catalog cand i .checksum
    | none => { candidate := cand, catalog := catalog, matched := none, errored := false }

/-- `Match` (podcast_matcher.go): path lookup, then unique size, then
duration tiebreak, then checksum; no match is not an error. -/
def Match (catalog : List PodcastEpisode) (pm : PodcastMatcher) (chk : Str → Option Str)
    (cand : PodcastEpisode) : MatchOutcome :=
  match lookupPath pm.podcastsByPath (canonicalizePathForMatching cand.filePath) with
  | some i => applyMatch catalog cand i .path
  | none =>
    match lookupSize pm.podcastsBySize cand.fileSize with
    | [] => { candidate := cand, catalog := catalog, matched := none, errored := false }
    | [i] => applyMatch catalog cand i .sizeUnique
    | i1 :: i2 :: rest =>
      match matchByDuration catalog cand (i1 :: i2 :: rest) with
      | some i => applyMatch catalog cand i .duration
      | none => checksumArm catalog chk cand (i1 :: i2 :: rest)

theorem find?_eq_head?_filter {α : Type} (p : α → Bool) (l : List α) :
    l.find? p = (l.filter p).head? := by
  induction l with
  | nil => rfl
  | cons a rest ih =>
    by_cases h : p a
    · rw [List.find?_cons_of_pos _ h, List.filter_cons_of_pos h]
      rfl
    · rw [List.find?_cons_of_neg _ h, List.filter_cons_of_neg h, ih]

theorem lookupSize_mem_entry {m : List (Int × List Nat)} {k : Int} {i : Nat}
    (h : i ∈ lookupSize m k) : ∃ l, (k, l) ∈ m ∧ i ∈ l := by
  induction m with
  | nil => simp [lookupSize] at h
  | cons e rest ih =>
    rcases e with ⟨k0, l0⟩
    by_cases hk : k0 = k
    · subst hk
      simp only [lookupSize, if_pos rfl] at h
      exact ⟨l0, List.mem_cons_self _ _, h⟩
    · simp only [lookupSize, if_neg hk] at h
      obtain ⟨l, hl, hi⟩ := ih h
      exact ⟨l, List.mem_cons_of_mem _ hl, hi⟩

theorem mem_upsertAppend {m : List (Int × List Nat)} {sz : Int} {idx : Nat} {k : Int} {l : List Nat}
    (h : (k, l) ∈ upsertAppend m sz idx) :
    (k, l) ∈ m ∨ (k = sz ∧ (l = [idx] ∨ ∃ l0, (sz, l0) ∈ m ∧ l = l0 ++ [idx])) := by
  induction m with
  | nil =>
    simp only [upsertAppend, List.mem_singleton, Prod.mk.injEq] at h
    obtain ⟨rfl, rfl⟩ := h
    exact Or.inr ⟨rfl, Or.inl rfl⟩
  | cons e rest ih =>
    rcases e with ⟨k0, l0⟩
    by_cases hk : k0 = sz
    · subst hk
      simp only [upsertAppend, if_true] at h
      rw [List.mem_cons] at h
      rcases h with h1 | h1
      · rw [Prod.mk.injEq] at h1
        obtain ⟨rfl, rfl⟩ := h1
        exact Or.inr ⟨rfl, Or.inr ⟨l0, List.mem_cons_self _ _, rfl⟩⟩
      · exact Or.inl (List.mem_cons_of_mem _ h1)
    · simp only [upsertAppend] at h
      rw [if_neg hk, List.mem_cons] at h
      rcases h with h | h
      · exact Or.inl (List.mem_cons.mpr (Or.inl h))
      · rcases ih h with h2 | h2
        · exact Or.inl (List.mem_cons_of_mem _ h2)
        · rcases h2 with ⟨rfl, h3⟩
          rcases h3 with h3 | ⟨l1, hl1, rfl⟩
          · exact Or.inr ⟨rfl, Or.inl h3⟩
          · exact Or.inr ⟨rfl, Or.inr ⟨l1, List.mem_cons_of_mem _ hl1, rfl⟩⟩

theorem sizeMap_entries_pos {catalog : List PodcastEpisode} {k : Int} {l : List Nat}
    (h : (k, l) ∈ buildPodcastSizeMap catalog) :
    ∀ i ∈ l, ∃ e, catalog.get? i = some e ∧ 0 < e.fileSize := by
  have main : ∀ (L : List (Nat × PodcastEpisode)) (m0 : List (Int × List Nat)),
      (∀ p ∈ L, catalog.get? p.1 = some p.2) →
      (∀ k0 l0, (k0, l0) ∈ m0 → ∀ i ∈ l0, ∃ e, catalog.get? i = some e ∧ 0 < e.fileSize) →
      ∀ k0 l0, (k0, l0) ∈ L.foldl
          (fun m p => if p.2.fileSize > 0 then upsertAppend m p.2.fileSize p.1 else m) m0 →
        ∀ i ∈ l0, ∃ e, catalog.get? i = some e ∧ 0 < e.fileSize := by
    intro L
    induction L with
    | nil => intro m0 _ hm0 k0 l0 hmem; exact hm0 k0 l0 hmem
    | cons p rest ih =>
      intro m0 hL hm0 k0 l0 hmem
      simp only [List.foldl_cons] at hmem
      by_cases hp : p.2.fileSize > 0
      · rw [if_pos hp] at hmem
        refine ih _ (fun q hq => hL q (List.mem_cons_of_mem _ hq)) ?_ k0 l0 hmem
        intro k1 l1 h1 i hi
        rcases mem_upsertAppend h1 with h2 | ⟨rfl, h3⟩
        · exact hm0 k1 l1 h2 i hi
        · rcases h3 with rfl | ⟨l2, hl2, rfl⟩
          · rw [List.mem_singleton] at hi
            subst hi
            exact ⟨p.2, hL p (List.mem_cons_self _ _), hp⟩
          · rcases List.mem_append.mp hi with hi | hi
            · exact hm0 _ _ hl2 i hi
            · rw [List.mem_singleton] at hi
              subst hi
              exact ⟨p.2, hL p (List.mem_cons_self _ _), hp⟩
      · rw [if_neg hp] at hmem
        exact ih _ (fun q hq => hL q (List.mem_cons_of_mem _ hq)) hm0 k0 l0 hmem
  intro i hi
  refine main catalog.enum [] ?_ (by intro k0 l0 h0; simp at h0) k l h i hi
  intro p hp
  rcases p with ⟨a, b⟩
  have h2 := List.mk_mem_enum_iff_getElem?.mp hp
  simpa [List.get?_eq_getElem?] using h2
theorem lookupPath_insertOverwrite (idx : List (Str × Nat)) (key : Str) (v : Nat) (s : Str) :
    lookupPath (insertOverwrite idx key v) s =
      if key = s then some v else lookupPath idx s := by
  induction idx with
  | nil =>
    by_cases h : key = s
    · simp [insertOverwrite, lookupPath, h]
    · simp [insertOverwrite, lookupPath, h]
  | cons e rest ih =>
    rcases e with ⟨k0, v0⟩
    by_cases hk : k0 = key
    · subst hk
      simp only [insertOverwrite, if_true]
      by_cases h : k0 = s
      · simp [lookupPath, h]
      · simp [lookupPath, h]
    · simp only [insertOverwrite, if_neg hk]
      by_cases h : k0 = s
      · subst h
        have hks : ¬ key = k0 := fun he => hk he.symm
        simp [lookupPath, if_neg hks]
      · simp [lookupPath, h, ih]

theorem lookupPath_buildPathIndex {catalog : List PodcastEpisode}
    {bySize : List (Int × List Nat)} {s : Str} {i : Nat}
    (h : lookupPath (buildPathIndex catalog bySize) s = some i) :
    ∃ k l, (k, l) ∈ bySize ∧ i ∈ l := by
  have inner : ∀ (ids : List Nat) (idx0 : List (Str × Nat)) (k : Int) (l : List Nat),
      (k, l) ∈ bySize → (∀ j ∈ ids, j ∈ l) →
      (∀ s0 i0, lookupPath idx0 s0 = some i0 → ∃ k1 l1, (k1, l1) ∈ bySize ∧ i0 ∈ l1) →
      ∀ s0 i0, lookupPath
          (ids.foldl (fun idx j =>
            match catalog.get? j with
            | some ep => insertOverwrite idx (buildExpectedDrivePath ep) j
            | none => idx) idx0) s0 = some i0 →
        ∃ k1 l1, (k1, l1) ∈ bySize ∧ i0 ∈ l1 := by
    intro ids
    induction ids with
    | nil => intro idx0 k l _ _ hidx0 s0 i0 h0; exact hidx0 s0 i0 h0
    | cons j rest ih =>
      intro idx0 k l hkl hsub hidx0 s0 i0 h0
      simp only [List.foldl_cons] at h0
      rcases hget : catalog.get? j with _ | ep
      · rw [hget] at h0
        exact ih idx0 k l hkl (fun j2 hj2 => hsub j2 (List.mem_cons_of_mem _ hj2)) hidx0 s0 i0 h0
      · rw [hget] at h0
        refine ih _ k l hkl (fun j2 hj2 => hsub j2 (List.mem_cons_of_mem _ hj2)) ?_ s0 i0 h0
        intro s1 i1 h1
        rw [lookupPath_insertOverwrite] at h1
        by_cases hs : buildExpectedDrivePath ep = s1
        · rw [if_pos hs] at h1
          obtain rfl : j = i1 := by injection h1
          exact ⟨k, l, hkl, hsub j (List.mem_cons_self _ _)⟩
        · rw [if_neg hs] at h1
          exact hidx0 s1 i1 h1
  have outer : ∀ (L : List (Int × List Nat)) (idx0 : List (Str × Nat)),
      (∀ p ∈ L, p ∈ bySize) →
      (∀ s0 i0, lookupPath idx0 s0 = some i0 → ∃ k1 l1, (k1, l1) ∈ bySize ∧ i0 ∈ l1) →
      ∀ s0 i0, lookupPath
          (L.foldl (fun idx p =>
            p.2.foldl (fun idx j =>
              match catalog.get? j with
              | some ep => insertOverwrite idx (buildExpectedDrivePath ep) j
              | none => idx) idx) idx0) s0 = some i0 →
        ∃ k1 l1, (k1, l1) ∈ bySize ∧ i0 ∈ l1 := by
    intro L
    induction L with
    | nil => intro idx0 _ hidx0 s0 i0 h0; exact hidx0 s0 i0 h0
    | cons p rest ih =>
      intro idx0 hL hidx0 s0 i0 h0
      simp only [List.foldl_cons] at h0
      refine ih _ (fun q hq => hL q (List.mem_cons_of_mem _ hq)) ?_ s0 i0 h0
      intro s1 i1 h1
      exact inner p.2 idx0 p.1 p.2 (by simpa using hL p (List.mem_cons_self _ _))
        (fun j hj => hj) hidx0 s1 i1 h1
  exact outer bySize [] (fun p hp => hp) (by intro s0 i0 h0; simp [lookupPath] at h0) s i h
theorem match_spec (catalog : List PodcastEpisode) (pm : PodcastMatcher)
    (chk : Str → Option Str) (cand : PodcastEpisode) :
    (∃ b, Match catalog pm chk cand =
      { candidate := cand, catalog := catalog, matched := none, errored := b }) ∨
    (∃ i step m, catalog.get? i = some m ∧
      (lookupPath pm.podcastsByPath (canonicalizePathForMatching cand.filePath) = some i ∨
        i ∈ lookupSize pm.podcastsBySize cand.fileSize) ∧
      Match catalog pm chk cand =
        { candidate := (updatePodcastMatch cand m).1
          catalog := catalog.set i (updatePodcastMatch cand m).2
          matched := some (i, step)
          errored := false }) := by
  unfold Match applyMatch checksumArm
  split
  next i heq =>
    split
    next m hget => exact Or.inr ⟨i, .path, m, hget, Or.inl heq, rfl⟩
    next hget => exact Or.inl ⟨false, rfl⟩
  next heq =>
    split
    next hls => exact Or.inl ⟨false, rfl⟩
    next i hls =>
      split
      next m hget =>
        exact Or.inr ⟨i, .sizeUnique, m, hget, Or.inr (by rw [hls]; exact List.mem_singleton.mpr rfl), rfl⟩
      next hget => exact Or.inl ⟨false, rfl⟩
    next i1 i2 rest hls =>
      split
      next i hdur =>
        split
        next m hget =>
          refine Or.inr ⟨i, .duration, m, hget, Or.inr ?_, rfl⟩
          rw [hls]
          unfold matchByDuration at hdur
          by_cases hd : cand.duration = 0
          · rw [if_pos hd] at hdur; cases hdur
          · rw [if_neg hd] at hdur
            exact List.mem_of_find?_eq_some hdur
        next hget => exact Or.inl ⟨false, rfl⟩
      next hdur =>
        split
        next e hchk => exact Or.inl ⟨true, rfl⟩
        next o hchk =>
          split
          next i =>
            unfold applyMatch
            split
            next m hget =>
              refine Or.inr ⟨i, .checksum, m, hget, Or.inr ?_, rfl⟩
              rw [hls]
              unfold matchByChecksum at hchk
              rcases hc : chk cand.filePath with _ | c
              · rw [hc] at hchk; cases hchk
              · rw [hc] at hchk
                simp only [Except.ok.injEq] at hchk
                exact List.mem_of_find?_eq_some hchk
            next hget => exact Or.inl ⟨false, rfl⟩
          next => exact Or.inl ⟨false, rfl⟩
/-- C3: a candidate whose canonicalized path (last two segments) is a key
of the path index built from the catalog is matched to that entry by the
path lookup alone: the outcome is the path-step update, for every checksum
oracle and with no constraint relating the candidate's size (or duration)
to the entry's. -/
theorem match_path_priority (catalog : List PodcastEpisode) (chk : Str → Option Str)
    (cand : PodcastEpisode) (i : Nat) (m : PodcastEpisode)
    (hlook : lookupPath (buildPathIndex catalog (buildPodcastSizeMap catalog))
      (canonicalizePathForMatching cand.filePath) = some i)
    (hm : catalog.get? i = some m) :
    Match catalog (NewPodcastMatcher catalog (buildPodcastSizeMap catalog)) chk cand =
      { candidate := (updatePodcastMatch cand m).1
        catalog := catalog.set i (updatePodcastMatch cand m).2
        matched := some (i, MatchStep.path)
        errored := false } := by
  unfold Match NewPodcastMatcher applyMatch
  simp only []
  rw [hlook]
  simp only []
  rw [hm]

/-- C4: for a candidate with no path match whose size collides with two or
more catalog entries — if the candidate's duration is positive and exactly
one colliding entry is within the 2 percent relative tolerance, `Match`
selects that entry and every other entry (in particular its on-destination
flag) is untouched; if the duration is zero or no entry is within
tolerance, the duration step yields nothing and `Match` is exactly the
checksum fallback. -/
theorem match_duration_tiebreak (catalog : List PodcastEpisode) (chk : Str → Option Str)
    (cand : PodcastEpisode) (ids : List Nat)
    (hpath : lookupPath (buildPathIndex catalog (buildPodcastSizeMap catalog))
      (canonicalizePathForMatching cand.filePath) = none)
    (hids : lookupSize (buildPodcastSizeMap catalog) cand.fileSize = ids)
    (hlen : 2 ≤ ids.length) :
    (∀ i m, 0 < cand.duration →
      ids.filter (fun j =>
        match catalog.get? j with
        | some e => durationWithinTol cand e
        | none => false) = [i] →
      catalog.get? i = some m →
      Match catalog (NewPodcastMatcher catalog (buildPodcastSizeMap catalog)) chk cand =
        { candidate := (updatePodcastMatch cand m).1
          catalog := catalog.set i (updatePodcastMatch cand m).2
          matched := some (i, MatchStep.duration)
          errored := false } ∧
      (∀ j, j ≠ i →
        (catalog.set i (updatePodcastMatch cand m).2).get? j = catalog.get? j)) ∧
    ((cand.duration = 0 ∨
        ids.filter (fun j =>
          match catalog.get? j with
          | some e => durationWithinTol cand e
          | none => false) = []) →
      matchByDuration catalog cand ids = none ∧
      Match catalog (NewPodcastMatcher catalog (buildPodcastSizeMap catalog)) chk cand =
        checksumArm catalog chk cand ids) := by
  obtain ⟨i1, i2, rest, rfl⟩ : ∃ i1 i2 rest, ids = i1 :: i2 :: rest := by
    rcases ids with _ | ⟨a, _ | ⟨b, t⟩⟩
    · simp at hlen
    · simp at hlen
    · exact ⟨a, b, t, rfl⟩
  constructor
  · intro i m hdur hone hget
    have hmd : matchByDuration catalog cand (i1 :: i2 :: rest) = some i := by
      unfold matchByDuration
      rw [if_neg (by omega)]
      rw [find?_eq_head?_filter, hone]
      rfl
    constructor
    · unfold Match NewPodcastMatcher applyMatch
      simp only []
      rw [hpath, hids]
      simp only []
      rw [hmd]
      simp only []
      rw [hget]
    · intro j hj
      simp only [List.get?_eq_getElem?]
      rw [List.getElem?_set_ne (fun he => hj he.symm)]
  · intro hnone
    have hmd : matchByDuration catalog cand (i1 :: i2 :: rest) = none := by
      unfold matchByDuration
      rcases hnone with h0 | h0
      · rw [if_pos h0]
      · by_cases hd : cand.duration = 0
        · rw [if_pos hd]
        · rw [if_neg hd, find?_eq_head?_filter, h0]
          rfl
    refine ⟨hmd, ?_⟩
    unfold Match NewPodcastMatcher
    simp only []
    rw [hpath, hids]
    simp only []
    rw [hmd]
/-- C5: whenever `Match` succeeds by any cascade step, the candidate is
flagged on-destination and its title, show name, duration and publish date
are overwritten with the matched entry's values while its other fields are
kept, and the catalog is changed only at the matched entry, which keeps
every field except the on-destination flag (no metadata flows from
candidate to catalog). -/
theorem match_success_updates_both (catalog : List PodcastEpisode) (pm : PodcastMatcher)
    (chk : Str → Option Str) (cand : PodcastEpisode) (i : Nat) (step : MatchStep)
    (m : PodcastEpisode)
    (hmatched : (Match catalog pm chk cand).matched = some (i, step))
    (hm : catalog.get? i = some m) :
    (Match catalog pm chk cand).candidate =
      { zTitle := m.zTitle, showName := m.showName, filePath := cand.filePath,
        published := m.published, selected := cand.selected, fileSize := cand.fileSize,
        onDrive := true, duration := m.duration, progress := cand.progress } ∧
    (Match catalog pm chk cand).catalog = catalog.set i { m with onDrive := true } ∧
    (∀ j, j ≠ i → (Match catalog pm chk cand).catalog.get? j = catalog.get? j) ∧
    (Match catalog pm chk cand).errored = false := by
  rcases match_spec catalog pm chk cand with ⟨b, heq⟩ | ⟨i2, step2, m2, hget2, _, heq⟩
  · rw [heq] at hmatched
    cases hmatched
  · rw [heq] at hmatched
    simp only [Option.some.injEq, Prod.mk.injEq] at hmatched
    obtain ⟨rfl, rfl⟩ := hmatched
    have hm2 : m2 = m := by
      rw [hget2] at hm
      injection hm
    subst hm2
    rw [heq]
    refine ⟨rfl, rfl, ?_, rfl⟩
    intro j hj
    simp only [List.get?_eq_getElem?]
    rw [List.getElem?_set_ne (fun he => hj he.symm)]

/-- C10: no `Match` call over indices built by `buildPodcastSizeMap` can
match a candidate to a catalog episode whose file size is zero (every
matched entry has positive size), and every zero-size episode's record —
its on-destination flag included — is left exactly as it was. -/
theorem match_never_matches_zero_size (catalog : List PodcastEpisode)
    (chk : Str → Option Str) (cand : PodcastEpisode) :
    (∀ i step,
      (Match catalog (NewPodcastMatcher catalog (buildPodcastSizeMap catalog)) chk
          cand).matched = some (i, step) →
      ∃ e, catalog.get? i = some e ∧ 0 < e.fileSize) ∧
    (∀ j e, catalog.get? j = some e → e.fileSize = 0 →
      (Match catalog (NewPodcastMatcher catalog (buildPodcastSizeMap catalog)) chk
          cand).catalog.get? j = some e) := by
  have hprov : ∀ i, (lookupPath (buildPathIndex catalog (buildPodcastSizeMap catalog))
        (canonicalizePathForMatching cand.filePath) = some i ∨
      i ∈ lookupSize (buildPodcastSizeMap catalog) cand.fileSize) →
      ∃ e, catalog.get? i = some e ∧ 0 < e.fileSize := by
    intro i hsrc
    rcases hsrc with h | h
    · obtain ⟨k, l, hkl, hil⟩ := lookupPath_buildPathIndex h
      exact sizeMap_entries_pos hkl i hil
    · obtain ⟨l, hkl, hil⟩ := lookupSize_mem_entry h
      exact sizeMap_entries_pos hkl i hil
  rcases match_spec catalog (NewPodcastMatcher catalog (buildPodcastSizeMap catalog)) chk cand
    with ⟨b, hout⟩ | ⟨i, step, m, hget, hsrc, hout⟩
  · constructor
    · intro i step hmatch
      rw [hout] at hmatch
      cases hmatch
    · intro j e hj _
      rw [hout]
      exact hj
  · constructor
    · intro i2 step2 hmatch
      rw [hout] at hmatch
      simp only [Option.some.injEq, Prod.mk.injEq] at hmatch
      obtain ⟨rfl, rfl⟩ := hmatch
      exact hprov i (by simpa [NewPodcastMatcher] using hsrc)
    · intro j e hj hzero
      rw [hout]
      by_cases hji : j = i
      · subst hji
        obtain ⟨e2, hget2, hpos⟩ := hprov j (by simpa [NewPodcastMatcher] using hsrc)
        rw [hj] at hget2
        obtain rfl : e = e2 := by injection hget2
        omega
      · simp only [List.get?_eq_getElem?]
        rw [List.getElem?_set_ne (fun he => hji he.symm)]
        rw [← List.get?_eq_getElem?]
        exact hj
def testShowEp1 : PodcastEpisode :=
  ⟨"Episode 1".data, "Test Show".data, "/local/Test Show/2024-01-15 - Episode 1.mp3".data,
    ⟨2024, 1, 15⟩, false, 1000, false, 1800, 0⟩

def testShowEp2 : PodcastEpisode :=
  ⟨"Episode 2".data, "Test Show".data, "/local/Test Show/2024-01-16 - Episode 2.mp3".data,
    ⟨2024, 1, 16⟩, false, 1000, false, 2400, 0⟩

def matcherCatalog : List PodcastEpisode := [testShowEp1, testShowEp2]

def pathCandidate : PodcastEpisode :=
  { emptyEpisode with
    filePath := "/Volumes/Drive/Test Show/2024-01-15 - Episode 1.mp3".data, fileSize := 999 }

def durationCandidate : PodcastEpisode :=
  { emptyEpisode with
    filePath := "/Volumes/Drive/Different/Path.mp3".data, fileSize := 1000, duration := 2400 }

def noDurationCandidate : PodcastEpisode :=
  { emptyEpisode with
    filePath := "/Volumes/Drive/Different/Path.mp3".data, fileSize := 1000, duration := 0 }

set_option maxRecDepth 100000 in
theorem match_path_priority_witness :
    lookupPath (buildPathIndex matcherCatalog (buildPodcastSizeMap matcherCatalog))
      (canonicalizePathForMatching pathCandidate.filePath) = some 0 ∧
    pathCandidate.fileSize ≠ testShowEp1.fileSize ∧
    Match matcherCatalog (NewPodcastMatcher matcherCatalog (buildPodcastSizeMap matcherCatalog))
        (fun _ => none) pathCandidate =
      { candidate := (updatePodcastMatch pathCandidate testShowEp1).1
        catalog := matcherCatalog.set 0 (updatePodcastMatch pathCandidate testShowEp1).2
        matched := some (0, MatchStep.path)
        errored := false } :=
  ⟨by decide, by decide,
    match_path_priority matcherCatalog (fun _ => none) pathCandidate 0 testShowEp1
      (by decide) (by decide)⟩

set_option maxRecDepth 100000 in
theorem match_duration_tiebreak_witness :
    Match matcherCatalog (NewPodcastMatcher matcherCatalog (buildPodcastSizeMap matcherCatalog))
        (fun _ => none) durationCandidate =
      { candidate := (updatePodcastMatch durationCandidate testShowEp2).1
        catalog := matcherCatalog.set 1 (updatePodcastMatch durationCandidate testShowEp2).2
        matched := some (1, MatchStep.duration)
        errored := false } ∧
    (matcherCatalog.set 1 (updatePodcastMatch durationCandidate testShowEp2).2).get? 0 =
      some testShowEp1 ∧
    matchByDuration matcherCatalog noDurationCandidate [0, 1] = none ∧
    Match matcherCatalog (NewPodcastMatcher matcherCatalog (buildPodcastSizeMap matcherCatalog))
        (fun _ => none) noDurationCandidate =
      checksumArm matcherCatalog (fun _ => none) noDurationCandidate [0, 1] := by
  have h1 := (match_duration_tiebreak matcherCatalog (fun _ => none) durationCandidate [0, 1]
    (by decide) (by decide) (by decide)).1 1 testShowEp2 (by decide) (by decide) (by decide)
  have h2 := (match_duration_tiebreak matcherCatalog (fun _ => none) noDurationCandidate [0, 1]
    (by decide) (by decide) (by decide)).2 (Or.inl (by decide))
  exact ⟨h1.1, by decide, h2.1, h2.2⟩
def zeroSizeEpisode : PodcastEpisode :=
  ⟨"Ghost".data, "Test Show".data, "/local/Test Show/2024-02-01 - Ghost.mp3".data,
    ⟨2024, 2, 1⟩, false, 0, false, 900, 0⟩

def zeroSizeCatalog : List PodcastEpisode := [zeroSizeEpisode, testShowEp1]

def ghostCandidate : PodcastEpisode :=
  { emptyEpisode with
    filePath := "/Volumes/Drive/Test Show/2024-02-01 - Ghost.mp3".data, fileSize := 0 }

set_option maxRecDepth 100000 in
theorem match_success_updates_both_witness :
    (Match matcherCatalog (NewPodcastMatcher matcherCatalog (buildPodcastSizeMap matcherCatalog))
        (fun _ => none) pathCandidate).matched = some (0, MatchStep.path) ∧
    (Match matcherCatalog (NewPodcastMatcher matcherCatalog (buildPodcastSizeMap matcherCatalog))
        (fun _ => none) pathCandidate).candidate =
      { zTitle := testShowEp1.zTitle, showName := testShowEp1.showName,
        filePath := pathCandidate.filePath, published := testShowEp1.published,
        selected := pathCandidate.selected, fileSize := pathCandidate.fileSize,
        onDrive := true, duration := testShowEp1.duration,
        progress := pathCandidate.progress } ∧
    (Match matcherCatalog (NewPodcastMatcher matcherCatalog (buildPodcastSizeMap matcherCatalog))
        (fun _ => none) pathCandidate).catalog =
      matcherCatalog.set 0 { testShowEp1 with onDrive := true } ∧
    (Match matcherCatalog (NewPodcastMatcher matcherCatalog (buildPodcastSizeMap matcherCatalog))
        (fun _ => none) pathCandidate).catalog.get? 1 = some testShowEp2 := by
  have h := match_success_updates_both matcherCatalog
    (NewPodcastMatcher matcherCatalog (buildPodcastSizeMap matcherCatalog)) (fun _ => none)
    pathCandidate 0 MatchStep.path testShowEp1 (by decide) (by decide)
  exact ⟨by decide, h.1, h.2.1, (h.2.2.1 1 (by decide)).trans (by decide)⟩

set_option maxRecDepth 100000 in
theorem match_never_matches_zero_size_witness :
    canonicalizePathForMatching ghostCandidate.filePath =
      buildExpectedDrivePath zeroSizeEpisode ∧
    (Match zeroSizeCatalog (NewPodcastMatcher zeroSizeCatalog (buildPodcastSizeMap zeroSizeCatalog))
        (fun _ => none) ghostCandidate).catalog.get? 0 = some zeroSizeEpisode ∧
    zeroSizeEpisode.onDrive = false := by
  have h := (match_never_matches_zero_size zeroSizeCatalog (fun _ => none) ghostCandidate).2
    0 zeroSizeEpisode (by decide) (by decide)
  exact ⟨by decide, h, by decide⟩

/-! ## Orchestrator: `StartSync` totals and the copy loop (C6) -/

/-- The destination path `syncEpisode` and `calculateActualTotals` both
compute: the show folder (sanitized show name) below the drive's podcast
folder, then the formatted episode name. -/
def destPath (podcastDir : Str) (ep : PodcastEpisode) : Str :=
  goJoin (goJoin podcastDir (sanitizeName ep.showName)) (formatEpisodeName ep)

/-- `calculateActualTotals`: sum the sizes and count only the selected
episodes whose destination path does not already exist.  `exists_` models
`fileExists`; the stat error, ignored at this call site, is collapsed into
the boolean. -/
def calculateActualTotals (exists_ : Str → Bool) (episodes : List PodcastEpisode)
    (podcastDir : Str) : Int × Nat :=
  episodes.foldl
    (fun acc ep =>
      if ep.selected then
        if exists_ (destPath podcastDir ep) then acc
        else (acc.1 + ep.fileSize, acc.2 + 1)
      else acc)
    (0, 0)

/-- The nominal (error-free, uncancelled) run of `syncEpisodes` over the
set `fs` of existing destination files: unselected episodes are skipped,
an episode whose destination already exists is skipped as a success, and
otherwise `copyEpisode` creates the destination file.  Returns the final
file set and the episodes for which the copy path ran; early exits (error,
stop) only shorten that list, so properties of the form "never copied"
proved of this run cover every actual run. -/
def syncEpisodesRun (podcastDir : Str) : List Str → List PodcastEpisode →
    List Str × List PodcastEpisode
  | fs, [] => (fs, [])
  | fs, ep :: rest =>
    if ep.selected then
      if destPath podcastDir ep ∈ fs then syncEpisodesRun podcastDir fs rest
      else
        let out := syncEpisodesRun podcastDir (destPath podcastDir ep :: fs) rest
        (out.1, ep :: out.2)
    else syncEpisodesRun podcastDir fs rest

/-- Copying only happens for destinations that did not exist when the loop
reached them; since copying only adds files, a destination that existed at
the start is never copied over. -/
theorem syncRun_copied_not_existing (podcastDir : Str) (fs : List Str)
    (eps : List PodcastEpisode) :
    ∀ ep ∈ (syncEpisodesRun podcastDir fs eps).2, destPath podcastDir ep ∉ fs := by
  induction eps generalizing fs with
  | nil => intro ep h; simp [syncEpisodesRun] at h
  | cons e rest ih =>
    intro ep h
    unfold syncEpisodesRun at h
    by_cases hsel : e.selected
    · rw [if_pos hsel] at h
      by_cases hex : destPath podcastDir e ∈ fs
      · rw [if_pos hex] at h
        exact ih fs ep h
      · rw [if_neg hex] at h
        simp only [List.mem_cons] at h
        rcases h with rfl | h
        · exact hex
        · have := ih (destPath podcastDir e :: fs) ep h
          exact fun hc => this (List.mem_cons_of_mem _ hc)
    · rw [if_neg hsel] at h
      exact ih fs ep h

/-- The fold of `calculateActualTotals` equals the sum and count over the
filtered list of selected, not-yet-present episodes. -/
theorem calculateActualTotals_eq (exists_ : Str → Bool) (episodes : List PodcastEpisode)
    (podcastDir : Str) :
    calculateActualTotals exists_ episodes podcastDir =
      ( ((episodes.filter fun e =>
            e.selected && !(exists_ (destPath podcastDir e))).map (fun e => e.fileSize)).sum
      , (episodes.filter fun e =>
            e.selected && !(exists_ (destPath podcastDir e))).length ) := by
  have aux : ∀ (l : List PodcastEpisode) (a : Int) (b : Nat),
      l.foldl (fun acc ep =>
        if ep.selected then
          if exists_ (destPath podcastDir ep) then acc
          else (acc.1 + ep.fileSize, acc.2 + 1)
        else acc) (a, b) =
      ( a + ((l.filter fun e =>
          e.selected && !(exists_ (destPath podcastDir e))).map (fun e => e.fileSize)).sum
      , b + (l.filter fun e =>
          e.selected && !(exists_ (destPath podcastDir e))).length ) := by
    intro l
    induction l with
    | nil => intro a b; simp
    | cons e rest ih =>
      intro a b
      simp only [List.foldl_cons]
      by_cases hsel : e.selected
      · by_cases hex : exists_ (destPath podcastDir e)
        · rw [if_pos hsel, if_pos hex, ih,
            List.filter_cons_of_neg (by simp [hsel, hex])]
        · rw [if_pos hsel, if_neg hex, ih,
            List.filter_cons_of_pos (by simp [hsel, hex])]
          simp only [List.map_cons, List.sum_cons, List.length_cons, Prod.mk.injEq]
          constructor
          · omega
          · omega
      · rw [if_neg hsel, ih, List.filter_cons_of_neg (by simp [hsel])]
  rw [calculateActualTotals, aux]
  simp

/-- C6: a selected episode whose expected destination path already exists
when the batch is computed contributes neither to `totalBytes` nor to
`totalFiles` (the session totals are exactly the sum of sizes and the
count of the selected episodes whose destination does not exist), and the
copy path is never invoked for it. -/
theorem startSync_excludes_existing (fs : List Str) (episodes : List PodcastEpisode)
    (podcastDir : Str) (ep : PodcastEpisode)
    (hmem : ep ∈ episodes) (hsel : ep.selected = true)
    (hex : destPath podcastDir ep ∈ fs) :
    calculateActualTotals (fun p => decide (p ∈ fs)) episodes podcastDir =
      ( ((episodes.filter fun e =>
            e.selected && !(decide (destPath podcastDir e ∈ fs))).map (fun e => e.fileSize)).sum
      , (episodes.filter fun e =>
            e.selected && !(decide (destPath podcastDir e ∈ fs))).length ) ∧
    ep ∉ (episodes.filter fun e =>
      e.selected && !(decide (destPath podcastDir e ∈ fs))) ∧
    ep ∉ (syncEpisodesRun podcastDir fs episodes).2 := by
  refine ⟨calculateActualTotals_eq _ _ _, ?_, ?_⟩
  · intro hc
    have h2 := List.of_mem_filter hc
    rw [hsel] at h2
    simp [hex] at h2
  · intro hc
    exact syncRun_copied_not_existing podcastDir fs episodes ep hc hex

/-- A selected 500-byte episode whose destination already exists. -/
def presentEpisode : PodcastEpisode :=
  ⟨"Hello".data, "Show".data, "/pods/Hello.mp3".data, ⟨2024, 1, 15⟩, true, 500, false, 0, 0⟩

/-- A selected 300-byte episode not yet on the destination. -/
def absentEpisode : PodcastEpisode :=
  ⟨"World".data, "Show".data, "/pods/World.mp3".data, ⟨2024, 1, 16⟩, true, 300, false, 0, 0⟩

def syncFs : List Str := ["podcasts/Show/2024-01-15 - Hello.mp3".data]

def syncEpisodes : List PodcastEpisode := [presentEpisode, absentEpisode]

set_option maxRecDepth 100000 in
/-- Witness for C6: with the 500-byte episode already present, the session
totals are 300 bytes and one file, and the copy path never runs for it. -/
theorem startSync_excludes_existing_witness :
    destPath "podcasts".data presentEpisode ∈ syncFs ∧
    calculateActualTotals (fun p => decide (p ∈ syncFs)) syncEpisodes "podcasts".data =
      (300, 1) ∧
    presentEpisode ∉ (syncEpisodesRun "podcasts".data syncFs syncEpisodes).2 := by
  have h := startSync_excludes_existing syncFs syncEpisodes "podcasts".data presentEpisode
    (by decide) (by decide) (by decide)
  exact ⟨by decide, h.1.trans (by decide), h.2.2⟩

/-! ## `DeleteSelected` and empty-directory cleanup (C9)

The destination tree is explicit state: the existing files and directories
by full path.  `os.Remove` on a file fails when the file is absent; on a
directory it fails when any entry (hidden files included) remains.
`isDirEmpty` ignores system hidden files.  The iteration order of Go's
`visitedDirs` map is arbitrary; first-visit order is fixed here.
`deleteErrors` is the same pass collecting every recordable error in
encounter order, used to state that the returned error is the first. -/

def isSystemHiddenFile (name : Str) : Bool :=
  name = ".DS_Store".data || name = ".Spotlight-V100".data || name = ".Trashes".data ||
  name = ".fseventsd".data || name = ".TemporaryItems".data ||
  name = ".VolumeIcon.icns".data || name = ".com.apple.timemachine.donotpresent".data ||
  name = ".DocumentRevisions-V100".data || name = ".PKInstallSandboxManager".data ||
  ("._".data).isPrefixOf name

structure FS where
  files : List Str
  dirs : List Str
deriving DecidableEq, Repr

def dirEntries (fs : FS) (d : Str) : List Str :=
  (fs.files.filter (fun f => goDir f = d)).map goBase ++
    (fs.dirs.filter (fun sub => goDir sub = d)).map goBase

inductive DelErr where
  | fileNotExist (p : Str)
  | dirNotEmpty (d : Str)
deriving DecidableEq, Repr

def removeFile (fs : FS) (p : Str) : FS × Option DelErr :=
  if p ∈ fs.files then ({ fs with files := fs.files.erase p }, none)
  else (fs, some (.fileNotExist p))

def isDirEmptyM (fs : FS) (d : Str) : Option Bool :=
  if d ∈ fs.dirs then
    some (((dirEntries fs d).filter (fun n => !isSystemHiddenFile n)).isEmpty)
  else none

def removeDir (fs : FS) (d : Str) : FS × Option DelErr :=
  if d ∈ fs.dirs then
    if dirEntries fs d = [] then ({ fs with dirs := fs.dirs.erase d }, none)
    else (fs, some (.dirNotEmpty d))
  else (fs, none)

def dedupAux : List Str → List Str → List Str
  | _, [] => []
  | seen, x :: rest =>
    if x ∈ seen then dedupAux seen rest else x :: dedupAux (x :: seen) rest

def visitedDirs (episodes : List PodcastEpisode) : List Str :=
  dedupAux [] ((episodes.filter (fun e => e.selected)).map (fun e => goDir e.filePath))

def deleteStep (st : FS × Option DelErr) (ep : PodcastEpisode) : FS × Option DelErr :=
  if ep.selected then
    let r := removeFile st.1 ep.filePath
    (r.1, st.2.orElse (fun _ => r.2))
  else st

def cleanupStep (st : FS × Option DelErr) (d : Str) : FS × Option DelErr :=
  match isDirEmptyM st.1 d with
  | some true =>
    let r := removeDir st.1 d
    (r.1, st.2.orElse (fun _ => r.2))
  | _ => st

def DeleteSelected (fs : FS) (episodes : List PodcastEpisode) : FS × Option DelErr :=
  (visitedDirs episodes).foldl cleanupStep (episodes.foldl deleteStep (fs, none))

def deleteStepL (st : FS × List DelErr) (ep : PodcastEpisode) : FS × List DelErr :=
  if ep.selected then
    let r := removeFile st.1 ep.filePath
    (r.1, st.2 ++ r.2.toList)
  else st

def cleanupStepL (st : FS × List DelErr) (d : Str) : FS × List DelErr :=
  match isDirEmptyM st.1 d with
  | some true =>
    let r := removeDir st.1 d
    (r.1, st.2 ++ r.2.toList)
  | _ => st

def deleteErrors (fs : FS) (episodes : List PodcastEpisode) : List DelErr :=
  ((visitedDirs episodes).foldl cleanupStepL (episodes.foldl deleteStepL (fs, []))).2
theorem deleteStep_files_subset (st : FS × Option DelErr) (ep : PodcastEpisode) :
    (deleteStep st ep).1.files ⊆ st.1.files := by
  unfold deleteStep removeFile
  by_cases hs : ep.selected
  · rw [if_pos hs]
    by_cases hmem : ep.filePath ∈ st.1.files
    · simp only [if_pos hmem]
      exact List.erase_subset _ _
    · simp only [if_neg hmem]
      exact fun x hx => hx
  · rw [if_neg hs]
    exact fun x hx => hx

theorem deleteStep_dirs_eq (st : FS × Option DelErr) (ep : PodcastEpisode) :
    (deleteStep st ep).1.dirs = st.1.dirs := by
  unfold deleteStep removeFile
  by_cases hs : ep.selected
  · rw [if_pos hs]
    by_cases hmem : ep.filePath ∈ st.1.files
    · simp [if_pos hmem]
    · simp [if_neg hmem]
  · rw [if_neg hs]

theorem deleteStep_nodup (st : FS × Option DelErr) (ep : PodcastEpisode)
    (h : st.1.files.Nodup) : (deleteStep st ep).1.files.Nodup := by
  unfold deleteStep removeFile
  by_cases hs : ep.selected
  · rw [if_pos hs]
    by_cases hmem : ep.filePath ∈ st.1.files
    · simp only [if_pos hmem]
      exact h.erase _
    · simp only [if_neg hmem]
      exact h
  · rw [if_neg hs]
    exact h

theorem foldl_deleteStep_files_subset (l : List PodcastEpisode) (st : FS × Option DelErr) :
    (l.foldl deleteStep st).1.files ⊆ st.1.files := by
  induction l generalizing st with
  | nil => exact fun x hx => hx
  | cons e rest ih =>
    rw [List.foldl_cons]
    exact fun x hx => deleteStep_files_subset st e (ih (deleteStep st e) hx)

theorem foldl_deleteStep_dirs_eq (l : List PodcastEpisode) (st : FS × Option DelErr) :
    (l.foldl deleteStep st).1.dirs = st.1.dirs := by
  induction l generalizing st with
  | nil => rfl
  | cons e rest ih =>
    rw [List.foldl_cons, ih, deleteStep_dirs_eq]

theorem foldl_deleteStep_removes (l : List PodcastEpisode) (st : FS × Option DelErr)
    (hnodup : st.1.files.Nodup) :
    ∀ ep ∈ l, ep.selected = true → ep.filePath ∉ (l.foldl deleteStep st).1.files := by
  induction l generalizing st with
  | nil => intro ep h; simp at h
  | cons e rest ih =>
    intro ep hmem hsel
    rw [List.foldl_cons]
    rcases List.mem_cons.mp hmem with rfl | hmem2
    · intro hc
      have h2 := foldl_deleteStep_files_subset rest (deleteStep st ep) hc
      unfold deleteStep removeFile at h2
      rw [if_pos hsel] at h2
      by_cases hin : ep.filePath ∈ st.1.files
      · simp only [if_pos hin] at h2
        exact (hnodup.mem_erase_iff.mp h2).1 rfl
      · simp only [if_neg hin] at h2
        exact hin h2
    · exact ih (deleteStep st e) (deleteStep_nodup st e hnodup) ep hmem2 hsel

theorem foldl_deleteStep_keeps (l : List PodcastEpisode) (st : FS × Option DelErr)
    (f : Str) (hf : f ∈ st.1.files)
    (hun : ∀ ep ∈ l, ep.selected = true → ep.filePath ≠ f) :
    f ∈ (l.foldl deleteStep st).1.files := by
  induction l generalizing st with
  | nil => exact hf
  | cons e rest ih
  =>
    rw [List.foldl_cons]
    refine ih (deleteStep st e) ?_ (fun ep h hs => hun ep (List.mem_cons_of_mem _ h) hs)
    unfold deleteStep removeFile
    by_cases hs : e.selected
    · rw [if_pos hs]
      by_cases hin : e.filePath ∈ st.1.files
      · simp only [if_pos hin]
        exact List.mem_erase_of_ne (fun he => hun e (List.mem_cons_self _ _) hs he.symm) |>.mpr hf
      · simp only [if_neg hin]
        exact hf
    · rw [if_neg hs]
      exact hf
theorem cleanupStep_files_eq (st : FS × Option DelErr) (d : Str) :
    (cleanupStep st d).1.files = st.1.files := by
  unfold cleanupStep removeDir
  rcases h : isDirEmptyM st.1 d with _ | b
  · rfl
  · cases b
    · rfl
    · by_cases h1 : d ∈ st.1.dirs
      · by_cases h2 : dirEntries st.1 d = []
        · simp [if_pos h1, if_pos h2]
        · simp [if_pos h1, if_neg h2]
      · simp [if_neg h1]

theorem foldl_cleanupStep_files_eq (l : List Str) (st : FS × Option DelErr) :
    (l.foldl cleanupStep st).1.files = st.1.files := by
  induction l generalizing st with
  | nil => rfl
  | cons d rest ih => rw [List.foldl_cons, ih, cleanupStep_files_eq]

theorem cleanupStep_dirs_cases (st : FS × Option DelErr) (d0 : Str) :
    (cleanupStep st d0).1.dirs = st.1.dirs ∨
    (dirEntries st.1 d0 = [] ∧ (cleanupStep st d0).1.dirs = st.1.dirs.erase d0) := by
  unfold cleanupStep removeDir
  rcases h : isDirEmptyM st.1 d0 with _ | b
  · exact Or.inl rfl
  · cases b
    · exact Or.inl rfl
    · by_cases h1 : d0 ∈ st.1.dirs
      · by_cases h2 : dirEntries st.1 d0 = []
        · exact Or.inr ⟨h2, by simp [if_pos h1, if_pos h2]⟩
        · exact Or.inl (by simp [if_pos h1, if_neg h2])
      · exact Or.inl (by simp [if_neg h1])

theorem foldl_cleanupStep_removed_dir (l : List Str) (st : FS × Option DelErr) (d : Str)
    (hin : d ∈ st.1.dirs) (hout : d ∉ (l.foldl cleanupStep st).1.dirs) :
    d ∈ l ∧ ∀ f ∈ st.1.files, goDir f ≠ d := by
  induction l generalizing st with
  | nil => exact absurd hin hout
  | cons d0 rest ih =>
    rw [List.foldl_cons] at hout
    by_cases hstill : d ∈ (cleanupStep st d0).1.dirs
    · have h2 := ih (cleanupStep st d0) hstill hout
      rw [cleanupStep_files_eq] at h2
      exact ⟨List.mem_cons_of_mem _ h2.1, h2.2⟩
    · rcases cleanupStep_dirs_cases st d0 with hsame | ⟨hempty, herase⟩
      · rw [hsame] at hstill
        exact absurd hin hstill
      · rw [herase] at hstill
        have hd : d = d0 := by
          by_contra hne
          exact hstill ((List.mem_erase_of_ne hne).mpr hin)
      
        subst hd
        refine ⟨List.mem_cons_self _ _, ?_⟩
        intro f hf hc
        have : goBase f ∈ dirEntries st.1 d := by
          unfold dirEntries
          exact List.mem_append.mpr (Or.inl (List.mem_map_of_mem _
            (List.mem_filter.mpr ⟨hf, by simp [hc]⟩)))
        rw [hempty] at this
        simp at this

theorem errAcc_head (opt : Option DelErr) (l : List DelErr) (r : Option DelErr)
    (h : opt = l.head?) :
    opt.orElse (fun _ => r) = (l ++ r.toList).head? := by
  rcases l with _ | ⟨e, rest⟩
  · rw [h]
    rcases r with _ | e2 <;> rfl
  · rw [h]
    rfl

theorem delete_err_head (fs : FS) (episodes : List PodcastEpisode) :
    (DeleteSelected fs episodes).2 = (deleteErrors fs episodes).head? := by
  have phase1 : ∀ (l : List PodcastEpisode) (f0 : FS) (o0 : Option DelErr) (l0 : List DelErr),
      o0 = l0.head? →
      (l.foldl deleteStep (f0, o0)).1 = (l.foldl deleteStepL (f0, l0)).1 ∧
      (l.foldl deleteStep (f0, o0)).2 = (l.foldl deleteStepL (f0, l0)).2.head? := by
    intro l
    induction l with
    | nil => intro f0 o0 l0 h; exact ⟨rfl, h⟩
    | cons e rest ih =>
      intro f0 o0 l0 h
      simp only [List.foldl_cons]
      by_cases hs : e.selected
      · unfold deleteStep deleteStepL
        rw [if_pos hs, if_pos hs]
        exact ih _ _ _ (errAcc_head o0 l0 _ h)
      · unfold deleteStep deleteStepL
        rw [if_neg hs, if_neg hs]
        exact ih _ _ _ h
  have phase2 : ∀ (l : List Str) (f0 : FS) (o0 : Option DelErr) (l0 : List DelErr),
      o0 = l0.head? →
      (l.foldl cleanupStep (f0, o0)).2 = (l.foldl cleanupStepL (f0, l0)).2.head? ∧
      (l.foldl cleanupStep (f0, o0)).1 = (l.foldl cleanupStepL (f0, l0)).1 := by
    intro l
    induction l with
    | nil => intro f0 o0 l0 h; exact ⟨h, rfl⟩
    | cons d rest ih =>
      intro f0 o0 l0 h
      simp only [List.foldl_cons]
      unfold cleanupStep cleanupStepL
      rcases he : isDirEmptyM f0 d with _ | b
      · exact ih _ _ _ h
      · cases b
        · exact ih _ _ _ h
        · exact ih _ _ _ (errAcc_head o0 l0 _ h)
  unfold DeleteSelected deleteErrors
  obtain ⟨hfs1, herr1⟩ := phase1 episodes fs none [] rfl
  obtain ⟨ha, _⟩ := phase2 (visitedDirs episodes) (episodes.foldl deleteStepL (fs, [])).1
    (episodes.foldl deleteStep (fs, none)).2 (episodes.foldl deleteStepL (fs, [])).2 herr1
  have hstep : List.foldl cleanupStep (episodes.foldl deleteStep (fs, none)) (visitedDirs episodes) =
      List.foldl cleanupStep ((episodes.foldl deleteStepL (fs, [])).1,
        (episodes.foldl deleteStep (fs, none)).2) (visitedDirs episodes) := by
    rw [← hfs1]
  rw [hstep]
  exact ha
  
/-- C9: `DeleteSelected` removes the destination file of every selected
episode (and of no other file), attempting every deletion regardless of
earlier errors; afterwards a directory is removed only if it was a visited
directory of a selected episode and it held no remaining file (in
particular none once system hidden files are ignored); and the returned
error is the first recordable error encountered, in order (file-removal
errors first, then non-IsNotExist directory-removal errors). -/
theorem deleteSelected_spec (fs : FS) (episodes : List PodcastEpisode)
    (hnodup : fs.files.Nodup) :
    (∀ ep ∈ episodes, ep.selected = true →
      ep.filePath ∉ (DeleteSelected fs episodes).1.files) ∧
    (∀ f ∈ fs.files, (∀ ep ∈ episodes, ep.selected = true → ep.filePath ≠ f) →
      f ∈ (DeleteSelected fs episodes).1.files) ∧
    (∀ d ∈ fs.dirs, d ∉ (DeleteSelected fs episodes).1.dirs →
      d ∈ visitedDirs episodes ∧
      ∀ f ∈ (DeleteSelected fs episodes).1.files, goDir f ≠ d) ∧
    (DeleteSelected fs episodes).2 = (deleteErrors fs episodes).head? := by
  have hfiles : (DeleteSelected fs episodes).1.files =
      (episodes.foldl deleteStep (fs, none)).1.files := by
    unfold DeleteSelected
    rw [foldl_cleanupStep_files_eq]
  refine ⟨?_, ?_, ?_, delete_err_head fs episodes⟩
  · intro ep hmem hsel
    rw [hfiles]
    exact foldl_deleteStep_removes episodes (fs, none) hnodup ep hmem hsel
  · intro f hf hun
    rw [hfiles]
    exact foldl_deleteStep_keeps episodes (fs, none) f hf hun
  · intro d hd hout
    have hd1 : d ∈ (episodes.foldl deleteStep (fs, none)).1.dirs := by
      rw [foldl_deleteStep_dirs_eq]
      exact hd
    have h2 := foldl_cleanupStep_removed_dir (visitedDirs episodes)
      (episodes.foldl deleteStep (fs, none)) d hd1 hout
    refine ⟨h2.1, ?_⟩
    intro f hf
    rw [hfiles] at hf
    exact h2.2 f hf

def showDirPath : Str := "/drive/podcasts/Test Show".data

def delEpisode1 : PodcastEpisode :=
  ⟨"Episode 1".data, "Test Show".data, "/drive/podcasts/Test Show/a.mp3".data,
    ⟨2024, 1, 15⟩, true, 1000, false, 0, 0⟩

def delEpisode2 : PodcastEpisode :=
  ⟨"Episode 2".data, "Test Show".data, "/drive/podcasts/Test Show/b.mp3".data,
    ⟨2024, 1, 16⟩, false, 1000, false, 0, 0⟩

def delFs : FS :=
  { files := ["/drive/podcasts/Test Show/a.mp3".data,
      "/drive/podcasts/Test Show/.DS_Store".data]
    dirs := [showDirPath] }

set_option maxRecDepth 100000 in
/-- Witness for C9. -/
theorem deleteSelected_spec_witness :
    delEpisode1.filePath ∉ (DeleteSelected delFs [delEpisode1, delEpisode2]).1.files ∧
    (DeleteSelected delFs [delEpisode1, delEpisode2]).2 =
      (deleteErrors delFs [delEpisode1, delEpisode2]).head? := by
  have h := deleteSelected_spec delFs [delEpisode1, delEpisode2] (by decide)
  exact ⟨h.1 delEpisode1 (by decide) (by decide), h.2.2.2⟩
end PodcastsSync

namespace PodcastsSync

structure TMState where
  totalBytes : Int
  baseOffset : Int
  currentFileBytes : Int
  currentFile : Str
  filesDone : Nat
  bytesTransferred : Int
  counter : Int
deriving DecidableEq, Repr

def initTM (totalBytes : Int) : TMState :=
  { totalBytes := totalBytes, baseOffset := 0, currentFileBytes := 0, currentFile := [],
    filesDone := 0, bytesTransferred := 0, counter := 0 }

inductive TMOp where
  | startFile (name : Str)
  | write (n : Nat)
  | completeFile (size : Int)
deriving DecidableEq, Repr

def tmStep (s : TMState) : TMOp → TMState
  | .startFile name =>
    { s with
      currentFileBytes := 0
      currentFile := name
      bytesTransferred := s.baseOffset
      counter := s.baseOffset }
  | .write n =>
    { s with
      currentFileBytes := s.currentFileBytes + n
      bytesTransferred := s.baseOffset + s.currentFileBytes + n
      counter := s.baseOffset + s.currentFileBytes + n }
  | .completeFile size =>
    { s with
      baseOffset := s.baseOffset + size
      currentFileBytes := 0
      filesDone := s.filesDone + 1
      bytesTransferred := s.baseOffset + size
      counter := s.baseOffset + size }

structure Snapshot where
  bytesTransferred : Int
  totalBytes : Int
  complete : Bool
  filesDone : Nat
deriving DecidableEq, Repr

def mkSnapshot (s : TMState) : Snapshot :=
  { bytesTransferred := s.counter
    totalBytes := s.totalBytes
    complete := decide ((s.totalBytes ≤ s.counter ∧ 0 ≤ s.totalBytes) ∨
      (s.totalBytes = 0 ∧ s.counter = 0))
    filesDone := s.filesDone }

inductive SessionEvent where
  | act (o : TMOp)
  | sample
deriving DecidableEq, Repr

def runSession (s : TMState) : List SessionEvent → TMState × List Snapshot
  | [] => (s, [])
  | .act o :: rest => runSession (tmStep s o) rest
  | .sample :: rest =>
    let r := runSession s rest
    (r.1, mkSnapshot s :: r.2)

inductive GoodSeq : Int → List SessionEvent → Prop
  | nil (cur : Int) : GoodSeq cur []
  | sample (cur : Int) (rest : List SessionEvent) :
      GoodSeq cur rest → GoodSeq cur (SessionEvent.sample :: rest)
  | write (cur : Int) (n : Nat) (rest : List SessionEvent) :
      GoodSeq (cur + n) rest → GoodSeq cur (SessionEvent.act (TMOp.write n) :: rest)
  | start (name : Str) (rest : List SessionEvent) :
      GoodSeq 0 rest → GoodSeq 0 (SessionEvent.act (TMOp.startFile name) :: rest)
  | complete (cur : Int) (rest : List SessionEvent) :
      GoodSeq 0 rest → GoodSeq cur (SessionEvent.act (TMOp.completeFile cur) :: rest)

theorem runSession_good (cur : Int) (evs : List SessionEvent) (hgood : GoodSeq cur evs) :
    ∀ s0 : TMState, s0.currentFileBytes = cur →
    s0.counter = s0.baseOffset + s0.currentFileBytes →
    s0.counter ≤ (runSession s0 evs).1.counter ∧
    (runSession s0 evs).1.counter =
      (runSession s0 evs).1.baseOffset + (runSession s0 evs).1.currentFileBytes ∧
    (∀ sn ∈ (runSession s0 evs).2, s0.counter ≤ sn.bytesTransferred) ∧
    List.Chain' (fun a b => a ≤ b)
      ((runSession s0 evs).2.map (fun sn => sn.bytesTransferred)) ∧
    (runSession s0 evs).1.totalBytes = s0.totalBytes := by
  induction hgood with
  | nil cur =>
    intro s0 hcur hinv
    exact ⟨le_refl _, hinv, by simp [runSession], by simp [runSession], rfl⟩
  | sample cur rest _ ih =>
    intro s0 hcur hinv
    obtain ⟨h1, h2, h3, h4, h5⟩ := ih s0 hcur hinv
    refine ⟨h1, h2, ?_, ?_, h5⟩
    · intro sn hsn
      simp only [runSession, List.mem_cons] at hsn
      rcases hsn with rfl | hsn
      · exact le_refl _
      · exact h3 sn hsn
    · simp only [runSession, List.map_cons]
      rw [List.chain'_cons']
      refine ⟨?_, h4⟩
      intro y hy
      rcases hhead : ((runSession s0 rest).2.map (fun sn => sn.bytesTransferred)).head?
          with _ | y0
      · rw [hhead] at hy; cases hy
      · rw [hhead] at hy
        simp only [Option.mem_def, Option.some.injEq] at hy
        subst hy
        have hmem := List.mem_of_mem_head? (by rw [hhead]; rfl)
        rw [List.mem_map] at hmem
        obtain ⟨sn, hsn, rfl⟩ := hmem
        exact h3 sn hsn
  | write cur n rest _ ih =>
    intro s0 hcur hinv
    have hstate : tmStep s0 (TMOp.write n) =
        { s0 with
          currentFileBytes := s0.currentFileBytes + n
          bytesTransferred := s0.baseOffset + s0.currentFileBytes + n
          counter := s0.baseOffset + s0.currentFileBytes + n } := rfl
    have hrun : runSession s0 (SessionEvent.act (TMOp.write n) :: rest) =
        runSession (tmStep s0 (TMOp.write n)) rest := rfl
    obtain ⟨h1, h2, h3, h4, h5⟩ := ih (tmStep s0 (TMOp.write n))
      (by rw [hstate]; simp [hcur]) (by rw [hstate]; simp; omega)
    have hle : s0.counter ≤ (tmStep s0 (TMOp.write n)).counter := by
      rw [hstate, hinv]
      simp
    rw [hrun]
    refine ⟨le_trans hle h1, h2, fun sn hsn => le_trans hle (h3 sn hsn), h4, ?_⟩
    rw [h5, hstate]
  | start name rest _ ih =>
    intro s0 hcur hinv
    have hstate : tmStep s0 (TMOp.startFile name) =
        { s0 with
          currentFileBytes := 0
          currentFile := name
          bytesTransferred := s0.baseOffset
          counter := s0.baseOffset } := rfl
    have hrun : runSession s0 (SessionEvent.act (TMOp.startFile name) :: rest) =
        runSession (tmStep s0 (TMOp.startFile name)) rest := rfl
    obtain ⟨h1, h2, h3, h4, h5⟩ := ih (tmStep s0 (TMOp.startFile name))
      (by rw [hstate]) (by rw [hstate]; simp)
    have heq : s0.counter = (tmStep s0 (TMOp.startFile name)).counter := by
      rw [hstate, hinv, hcur]
      simp
    rw [hrun]
    exact ⟨heq ▸ h1, h2, fun sn hsn => heq ▸ h3 sn hsn, h4, by rw [h5, hstate]⟩
  | complete cur rest _ ih =>
    intro s0 hcur hinv
    have hstate : tmStep s0 (TMOp.completeFile cur) =
        { s0 with
          baseOffset := s0.baseOffset + cur
          currentFileBytes := 0
          filesDone := s0.filesDone + 1
          bytesTransferred := s0.baseOffset + cur
          counter := s0.baseOffset + cur } := rfl
    have hrun : runSession s0 (SessionEvent.act (TMOp.completeFile cur) :: rest) =
        runSession (tmStep s0 (TMOp.completeFile cur)) rest := rfl
    obtain ⟨h1, h2, h3, h4, h5⟩ := ih (tmStep s0 (TMOp.completeFile cur))
      (by rw [hstate]) (by rw [hstate]; simp)
    have heq : s0.counter = (tmStep s0 (TMOp.completeFile cur)).counter := by
      rw [hstate, hinv, hcur]
    rw [hrun]
    exact ⟨heq ▸ h1, h2, fun sn hsn => heq ▸ h3 sn hsn, h4, by rw [h5, hstate]⟩

end PodcastsSync


namespace PodcastsSync

theorem runSession_append (s : TMState) (a b : List SessionEvent) :
    runSession s (a ++ b) =
      ((runSession (runSession s a).1 b).1,
        (runSession s a).2 ++ (runSession (runSession s a).1 b).2) := by
  induction a generalizing s with
  | nil => simp [runSession]
  | cons e rest ih =>
    cases e with
    | act o =>
      simp only [List.cons_append, runSession, List.append_eq]
      exact ih (tmStep s o)
    | sample =>
      simp only [List.cons_append, runSession, List.append_eq]
      rw [ih s]

/-- Executable check for `GoodSeq`. -/
def goodSeqChk (cur : Int) : List SessionEvent → Bool
  | [] => true
  | .sample :: rest => goodSeqChk cur rest
  | .act (.write n) :: rest => goodSeqChk (cur + n) rest
  | .act (.startFile _) :: rest => decide (cur = 0) && goodSeqChk 0 rest
  | .act (.completeFile size) :: rest => decide (size = cur) && goodSeqChk 0 rest

theorem goodSeq_of_chk (evs : List SessionEvent) :
    ∀ cur, goodSeqChk cur evs = true → GoodSeq cur evs := by
  induction evs with
  | nil => intro cur _; exact GoodSeq.nil cur
  | cons e rest ih =>
    intro cur h
    cases e with
    | sample =>
      exact GoodSeq.sample cur rest (ih cur h)
    | act o =>
      cases o with
      | startFile name =>
        simp only [goodSeqChk, Bool.and_eq_true, decide_eq_true_eq] at h
        rw [h.1]
        exact GoodSeq.start name rest (ih 0 h.2)
      | write n =>
        exact GoodSeq.write cur n rest (ih (cur + n) h)
      | completeFile size =>
        simp only [goodSeqChk, Bool.and_eq_true, decide_eq_true_eq] at h
        rw [← h.1]
        exact GoodSeq.complete size rest (ih 0 h.2)

/-- C7 (amended): under the write discipline actually followed by the sync loop
(a file is started with no partial bytes outstanding, and CompleteFile is called
with exactly the number of bytes written for that file), the bytesTransferred
values of successively taken snapshots are non-decreasing, the final delivered
snapshot is the snapshot of the final state, and when the counter has reached
totalBytes (with totalBytes non-negative) that final snapshot reports
complete = true and bytesTransferred = totalBytes. -/
theorem progress_monotone_disciplined (s0 : TMState) (pre : List SessionEvent)
    (hgood : GoodSeq s0.currentFileBytes (pre ++ [SessionEvent.sample]))
    (hinv : s0.counter = s0.baseOffset + s0.currentFileBytes) :
    List.Chain' (fun a b => a ≤ b)
      ((runSession s0 (pre ++ [SessionEvent.sample])).2.map
        (fun sn => sn.bytesTransferred)) ∧
    (runSession s0 (pre ++ [SessionEvent.sample])).2.getLast? =
      some (mkSnapshot (runSession s0 (pre ++ [SessionEvent.sample])).1) ∧
    ((runSession s0 (pre ++ [SessionEvent.sample])).1.counter =
        (runSession s0 (pre ++ [SessionEvent.sample])).1.totalBytes →
      0 ≤ (runSession s0 (pre ++ [SessionEvent.sample])).1.totalBytes →
      (mkSnapshot (runSession s0 (pre ++ [SessionEvent.sample])).1).complete = true ∧
      (mkSnapshot (runSession s0 (pre ++ [SessionEvent.sample])).1).bytesTransferred =
        (runSession s0 (pre ++ [SessionEvent.sample])).1.totalBytes) := by
  have hg := runSession_good s0.currentFileBytes (pre ++ [SessionEvent.sample]) hgood s0 rfl hinv
  refine ⟨hg.2.2.2.1, ?_, ?_⟩
  · rw [runSession_append]
    simp only [runSession]
    rw [List.getLast?_concat]
  · intro hc _
    unfold mkSnapshot
    simp only [decide_eq_true_eq]
    refine ⟨?_, hc⟩
    exact Or.inl ⟨le_of_eq hc.symm, by omega⟩

/-- The op sequence of the claim can decrease the byte counter: 100 bytes are
written for a file whose recorded size is only 50, so CompleteFile stores the
smaller base offset back into the counter. -/
def shrinkEvents : List SessionEvent :=
  [SessionEvent.act (TMOp.startFile "f".data), SessionEvent.act (TMOp.write 100),
    SessionEvent.sample, SessionEvent.act (TMOp.completeFile 50), SessionEvent.sample]

/-- C7 counterexample. -/
theorem progress_monotonicity_counterexample :
    ((runSession (initTM 100) shrinkEvents).2.map (fun sn => sn.bytesTransferred)) =
      [100, 50] ∧
    ¬ List.Chain' (fun a b => a ≤ b)
      ((runSession (initTM 100) shrinkEvents).2.map (fun sn => sn.bytesTransferred)) := by
  have h1 : ((runSession (initTM 100) shrinkEvents).2.map
      (fun sn => sn.bytesTransferred)) = [100, 50] := by decide
  refine ⟨h1, ?_⟩
  rw [h1]
  intro h
  have := (List.chain'_cons.mp h).1
  omega

def chunkEvents : List SessionEvent :=
  [SessionEvent.act (TMOp.startFile "f".data),
    SessionEvent.act (TMOp.write 250000), SessionEvent.sample,
    SessionEvent.act (TMOp.write 250000), SessionEvent.sample,
    SessionEvent.act (TMOp.write 250000), SessionEvent.sample,
    SessionEvent.act (TMOp.write 250000), SessionEvent.sample,
    SessionEvent.act (TMOp.completeFile 1000000)]

/-- Witness for the amended C7 on the four-chunk scenario. -/
theorem progress_monotone_disciplined_witness :
    List.Chain' (fun a b => a ≤ b)
      ((runSession (initTM 1000000) (chunkEvents ++ [SessionEvent.sample])).2.map
        (fun sn => sn.bytesTransferred)) ∧
    (runSession (initTM 1000000) (chunkEvents ++ [SessionEvent.sample])).2.getLast? =
      some (mkSnapshot (runSession (initTM 1000000)
        (chunkEvents ++ [SessionEvent.sample])).1) ∧
    (mkSnapshot (runSession (initTM 1000000)
      (chunkEvents ++ [SessionEvent.sample])).1).bytesTransferred = 1000000 ∧
    (mkSnapshot (runSession (initTM 1000000)
      (chunkEvents ++ [SessionEvent.sample])).1).complete = true := by
  have h := progress_monotone_disciplined (initTM 1000000) chunkEvents
    (goodSeq_of_chk _ _ (by decide)) rfl
  have hc := h.2.2 (by decide) (by decide)
  exact ⟨h.1, h.2.1, by rw [hc.2]; decide, hc.1⟩

end PodcastsSync

namespace PodcastsSync

/-- Throttle state consulted by shouldSendUpdate; elapsedExceeded abstracts
time.Since(lastSent) > maxTimeBetweenUpdates. -/
structure Throttle where
  lastSentBytes : Int
  lastSentProgress : ℚ
  minBytesThreshold : Int
  minProgressThreshold : ℚ
  elapsedExceeded : Bool
deriving DecidableEq

/-- Which select case fires in the final-send select of performUpdateAndSend. -/
inductive SendBranch where
  | deliver
  | stopSignal
  | timeout
deriving DecidableEq

/-- Which case of senderLoop's outer select fires once Stop has closed stopCh:
the stopCh receive, or a pending ticker tick that raced it. -/
inductive LoopBranch where
  | stopCase
  | tickCase
deriving DecidableEq

/-- Observable state of a ProgressWriter. -/
structure PWState where
  stopping : Bool
  stopChClosed : Bool
  stopOnceDone : Bool
  senderRunning : Bool
  chNonNil : Bool
  throttle : Throttle
  bytes : Int
  total : Int
  finalDelivered : Option Bool
deriving DecidableEq

namespace ProgressWriter

def shouldSendUpdate (t : Throttle) (currentBytes : Int) (currentProgress : ℚ)
    (isFinalUpdate : Bool) : Bool :=
  if isFinalUpdate then true
  else if t.minBytesThreshold ≤ currentBytes - t.lastSentBytes then true
  else if t.minProgressThreshold ≤ |currentProgress - t.lastSentProgress| then true
  else t.elapsedExceeded

/-- A select case can fire only when ready: the channel send needs a ready
receiver, the stopCh receive needs stopCh closed, time.After is always ready. -/
def selectEnabled (s : PWState) (receiverReady : Bool) : SendBranch → Bool
  | SendBranch.deliver => receiverReady
  | SendBranch.stopSignal => s.stopChClosed
  | SendBranch.timeout => true

def performUpdateAndSend (s : PWState) (isFinalUpdate : Bool) (b : SendBranch) : PWState :=
  let actualBytes := s.bytes
  let currentProgress : ℚ := if 0 < s.total then min 1 ((actualBytes : ℚ) / (s.total : ℚ)) else 1
  if s.chNonNil && shouldSendUpdate s.throttle actualBytes currentProgress isFinalUpdate then
    if b = SendBranch.deliver then
      { s with throttle := { lastSentBytes := actualBytes, lastSentProgress := currentProgress, minBytesThreshold := s.throttle.minBytesThreshold, minProgressThreshold := s.throttle.minProgressThreshold, elapsedExceeded := false }, finalDelivered := if isFinalUpdate then some true else s.finalDelivered }
    else
      { s with finalDelivered := if isFinalUpdate then some false else s.finalDelivered }
  else
    { s with finalDelivered := if isFinalUpdate then some false else s.finalDelivered }

/-- A case of senderLoop's outer select can fire only when ready: the stopCh
receive needs stopCh closed, the ticker case needs a pending tick. -/
def loopSelectEnabled (s : PWState) (tickPending : Bool) : LoopBranch → Bool
  | LoopBranch.stopCase => s.stopChClosed
  | LoopBranch.tickCase => tickPending

/-- One iteration of senderLoop's outer select. The stopCh case leaves the
loop after a final update; the ticker case first checks the stopping flag and,
if it is set, exits without touching performUpdateAndSend, otherwise performs
a regular update (final exactly when the transfer is complete). -/
def senderLoopStep (s : PWState) (lb : LoopBranch) (b : SendBranch) : PWState :=
  match lb with
  | LoopBranch.stopCase => { performUpdateAndSend s true b with senderRunning := false }
  | LoopBranch.tickCase =>
      if s.stopping then { s with senderRunning := false }
      else
        let isComplete := decide ((s.total ≤ s.bytes ∧ 0 ≤ s.total) ∨ (s.total = 0 ∧ s.bytes = 0))
        if isComplete then { performUpdateAndSend s isComplete b with senderRunning := false }
        else performUpdateAndSend s isComplete b

def Stop (s : PWState) (lb : LoopBranch) (b : SendBranch) : PWState :=
  if s.stopOnceDone then s
  else if s.senderRunning then
    senderLoopStep { s with stopOnceDone := true, stopping := true, stopChClosed := true } lb b
  else { s with stopOnceDone := true, stopping := true, stopChClosed := true }

def Write (s : PWState) (p : List Char) : Option Nat :=
  if s.stopping then none else some p.length

end ProgressWriter

def initThrottle : Throttle :=
  { lastSentBytes := 0, lastSentProgress := 0, minBytesThreshold := 65536, minProgressThreshold := 1/200, elapsedExceeded := false }

def initPW (total : Int) : PWState :=
  { stopping := false, stopChClosed := false, stopOnceDone := false, senderRunning := true, chNonNil := true, throttle := initThrottle, bytes := 0, total := total, finalDelivered := none }

theorem performUpdateAndSend_stopping (s : PWState) (f : Bool) (b : SendBranch) :
    (ProgressWriter.performUpdateAndSend s f b).stopping = s.stopping := by
  simp only [ProgressWriter.performUpdateAndSend]
  repeat' split
  all_goals rfl

theorem performUpdateAndSend_stopOnceDone (s : PWState) (f : Bool) (b : SendBranch) :
    (ProgressWriter.performUpdateAndSend s f b).stopOnceDone = s.stopOnceDone := by
  simp only [ProgressWriter.performUpdateAndSend]
  repeat' split
  all_goals rfl

theorem performUpdateAndSend_final (s : PWState) (b : SendBranch) (hch : s.chNonNil = true) :
    (ProgressWriter.performUpdateAndSend s true b).finalDelivered =
      some (decide (b = SendBranch.deliver)) := by
  simp only [ProgressWriter.performUpdateAndSend, ProgressWriter.shouldSendUpdate, hch]
  by_cases hb : b = SendBranch.deliver
  · simp [hb]
  · simp [hb]

theorem Stop_done (s : PWState) (lb : LoopBranch) (b : SendBranch)
    (h : s.stopOnceDone = true) : ProgressWriter.Stop s lb b = s := by
  simp [ProgressWriter.Stop, h]

theorem Stop_form_stop (s : PWState) (b : SendBranch) (hfresh : s.stopOnceDone = false)
    (hrun : s.senderRunning = true) :
    ProgressWriter.Stop s LoopBranch.stopCase b =
      { ProgressWriter.performUpdateAndSend
          { s with stopOnceDone := true, stopping := true, stopChClosed := true } true b with
        senderRunning := false } := by
  simp [ProgressWriter.Stop, ProgressWriter.senderLoopStep, hfresh, hrun]

theorem Stop_form_tick (s : PWState) (b : SendBranch) (hfresh : s.stopOnceDone = false)
    (hrun : s.senderRunning = true) :
    ProgressWriter.Stop s LoopBranch.tickCase b =
      { s with stopOnceDone := true, stopping := true, stopChClosed := true, senderRunning := false } := by
  simp [ProgressWriter.Stop, ProgressWriter.senderLoopStep, hfresh, hrun]

/-- C8 (amended): Stop on a live session sets the stopping flag, consumes the
sync.Once, and returns only after the sender loop has exited; further Stop
calls are no-ops; a final update bypasses the throttle (shouldSendUpdate is
true whenever isFinalUpdate is); and writes after Stop fail. At most one final
snapshot send happens, and neither the attempt nor its delivery is guaranteed:
if the stopCh case of the sender's outer select wins, one final send is
attempted and delivered exactly when the inner select takes the channel-send
case; if a pending ticker tick wins the race, the loop observes the stopping
flag and exits without attempting any final send. -/
theorem stop_semantics (s : PWState) (lb : LoopBranch) (b : SendBranch)
    (hfresh : s.stopOnceDone = false) (hrun : s.senderRunning = true) :
    (ProgressWriter.Stop s lb b).stopping = true ∧
    (ProgressWriter.Stop s lb b).stopOnceDone = true ∧
    (ProgressWriter.Stop s lb b).senderRunning = false ∧
    (∀ lb2 b2, ProgressWriter.Stop (ProgressWriter.Stop s lb b) lb2 b2 =
      ProgressWriter.Stop s lb b) ∧
    (∀ t x y, ProgressWriter.shouldSendUpdate t x y true = true) ∧
    (lb = LoopBranch.stopCase → s.chNonNil = true →
      (ProgressWriter.Stop s lb b).finalDelivered = some (decide (b = SendBranch.deliver))) ∧
    (lb = LoopBranch.tickCase →
      (ProgressWriter.Stop s lb b).finalDelivered = s.finalDelivered) ∧
    (∀ p, ProgressWriter.Write (ProgressWriter.Stop s lb b) p = none) := by
  cases lb with
  | stopCase =>
    have hform := Stop_form_stop s b hfresh hrun
    have hstopping : (ProgressWriter.Stop s LoopBranch.stopCase b).stopping = true := by
      rw [hform]
      show (ProgressWriter.performUpdateAndSend _ true b).stopping = true
      rw [performUpdateAndSend_stopping]
    have hdone : (ProgressWriter.Stop s LoopBranch.stopCase b).stopOnceDone = true := by
      rw [hform]
      show (ProgressWriter.performUpdateAndSend _ true b).stopOnceDone = true
      rw [performUpdateAndSend_stopOnceDone]
    refine ⟨hstopping, hdone, ?_, fun lb2 b2 => Stop_done _ lb2 b2 hdone,
      fun t x y => rfl, ?_, ?_, ?_⟩
    · rw [hform]
    · intro _ hch
      rw [hform]
      show (ProgressWriter.performUpdateAndSend _ true b).finalDelivered = _
      exact performUpdateAndSend_final _ b hch
    · intro h
      exact (LoopBranch.noConfusion h)
    · intro p
      unfold ProgressWriter.Write
      rw [hstopping]
      rfl
  | tickCase =>
    have hform := Stop_form_tick s b hfresh hrun
    have hstopping : (ProgressWriter.Stop s LoopBranch.tickCase b).stopping = true := by
      rw [hform]
    have hdone : (ProgressWriter.Stop s LoopBranch.tickCase b).stopOnceDone = true := by
      rw [hform]
    refine ⟨hstopping, hdone, ?_, fun lb2 b2 => Stop_done _ lb2 b2 hdone,
      fun t x y => rfl, ?_, ?_, ?_⟩
    · rw [hform]
    · intro h
      exact (LoopBranch.noConfusion h)
    · intro _
      rw [hform]
    · intro p
      unfold ProgressWriter.Write
      rw [hstopping]
      rfl

/-- C8 counterexample: when Stop runs, stopCh is closed before the sender
reacts. If the stopCh case of the outer select wins, the final send's inner
select also has the stop-signal case enabled (even with a ready receiver), and
taking it drops the final snapshot; if a pending ticker tick wins the outer
race instead, the loop exits without even attempting a final send. -/
theorem stop_final_send_can_be_dropped :
    ProgressWriter.selectEnabled
      { initPW 100 with stopOnceDone := true, stopping := true, stopChClosed := true }
      true SendBranch.stopSignal = true ∧
    (ProgressWriter.Stop (initPW 100) LoopBranch.stopCase SendBranch.stopSignal).finalDelivered =
      some false ∧
    ProgressWriter.loopSelectEnabled
      { initPW 100 with stopOnceDone := true, stopping := true, stopChClosed := true }
      true LoopBranch.tickCase = true ∧
    (ProgressWriter.Stop (initPW 100) LoopBranch.tickCase SendBranch.deliver).finalDelivered =
      none ∧
    (ProgressWriter.Stop (initPW 100) LoopBranch.stopCase SendBranch.stopSignal).senderRunning =
      false := by
  refine ⟨rfl, by decide, rfl, by decide, rfl⟩

/-- Witness for the amended C8. -/
theorem stop_semantics_witness :
    (ProgressWriter.Stop (initPW 100) LoopBranch.stopCase SendBranch.deliver).finalDelivered =
      some true ∧
    (ProgressWriter.Stop (initPW 100) LoopBranch.stopCase SendBranch.deliver).senderRunning =
      false ∧
    (∀ lb2 b2, ProgressWriter.Stop
      (ProgressWriter.Stop (initPW 100) LoopBranch.stopCase SendBranch.deliver) lb2 b2 =
      ProgressWriter.Stop (initPW 100) LoopBranch.stopCase SendBranch.deliver) := by
  have h := stop_semantics (initPW 100) LoopBranch.stopCase SendBranch.deliver rfl rfl
  refine ⟨?_, h.2.2.1, h.2.2.2.1⟩
  rw [h.2.2.2.2.2.1 rfl rfl]
  rfl

end PodcastsSync
